import Mathlib

/-!
Shallow embedding of `src/linker.py` (softlink installation utility).

Paths are modelled structurally: a flag saying whether the path is anchored at
the filesystem root, plus the list of components, exactly as `pathlib` keeps
them (`pathlib` never collapses ".." components, and neither do we).  The
filesystem is an association list from paths to entries; an entry is a regular
file (with contents), a directory, or a symbolic link storing its literal
target.  Existence checks with `follow_symlinks=False` are lookups; checks that
follow links chase symlink targets with the usual fuel bound (40 on Linux).
Printing is modelled by a log of emitted lines threaded through every
operation, and a raised Python exception is an `Except.error` carrying the
message, paired with the state at raise time (a raise does not roll back the
filesystem).
-/

namespace Linker

/-- A `pathlib.Path`: whether it is absolute, and its components in order.
`pathlib` keeps ".." components literally, so we store components unnormalised. -/
structure Path where
  absolute : Bool
  parts : List String
deriving DecidableEq

/-- The `/` operator of `pathlib`: joining with an absolute right operand
discards the left operand. -/
def Path.join (p q : Path) : Path :=
  if q.absolute then q else ⟨p.absolute, p.parts ++ q.parts⟩

/-- `Path.parent`: drop the last component. -/
def Path.parent (p : Path) : Path :=
  ⟨p.absolute, p.parts.dropLast⟩

/-- `Path.parents`: the strict ancestors of a path, i.e. all proper
component-list truncations, down to the anchor (`/` or `.`). -/
def Path.parents (p : Path) : List Path :=
  (List.range p.parts.length).map fun i => ⟨p.absolute, p.parts.take i⟩

/-- `Path.expanduser` with an explicit home directory: a leading bare `~`
component of a relative path is replaced by the home directory. -/
def Path.expanduser (home : Path) (p : Path) : Path :=
  if p.absolute then p
  else
    match p.parts with
    | "~" :: rest => ⟨home.absolute, home.parts ++ rest⟩
    | _ => p

/-- `Path.absolute()`: interpret a relative path against the current working
directory. -/
def Path.toAbsolute (cwd : Path) (p : Path) : Path :=
  if p.absolute then p else Path.join cwd p

/-- The posix string form of a path, as `str(Path)` produces it. -/
def Path.toStr (p : Path) : String :=
  (if p.absolute then "/" else "") ++ String.intercalate "/" p.parts

instance : ToString Path := ⟨Path.toStr⟩

/-- A filesystem entry: regular file with contents, directory, or symbolic
link with its literal (unresolved) target. -/
inductive Entry where
  | file (content : String)
  | dir
  | symlink (target : Path)
deriving DecidableEq

/-- The filesystem: a finite map from paths to entries, as an association
list. -/
abbrev FS := List (Path × Entry)

/-- Lookup of the entry at a path (an `lstat`: symlinks are not followed). -/
def lookupFS : FS → Path → Option Entry
  | [], _ => none
  | (q, e) :: rest, p => if p = q then some e else lookupFS rest p

/-- Remove the entry at a path. -/
def eraseFS : FS → Path → FS
  | [], _ => []
  | kv :: rest, p => if kv.1 = p then eraseFS rest p else kv :: eraseFS rest p

/-- Set the entry at a path. -/
def insertFS (fs : FS) (p : Path) (e : Entry) : FS :=
  (p, e) :: eraseFS fs p

/-- Resolve a path by following symlinks at most `fuel` times, returning the
final entry if any (an `os.stat`, which fails once the link chain is too
long). -/
def resolveEntry (fs : FS) (fuel : Nat) (p : Path) : Option Entry :=
  match lookupFS fs p with
  | some (.symlink t) =>
    match fuel with
    | 0 => none
    | f + 1 => resolveEntry fs f t
  | o => o

/-- The kernel's symlink-following limit (40 on Linux). -/
def MAXSYMLINKS : Nat := 40

/-- `Path.exists(follow_symlinks=True)`. -/
def existsFollow (fs : FS) (p : Path) : Bool :=
  (resolveEntry fs MAXSYMLINKS p).isSome

/-- `Path.is_dir()`: follows symlinks and tests for a directory. -/
def isDirFollow (fs : FS) (p : Path) : Bool :=
  match resolveEntry fs MAXSYMLINKS p with
  | some .dir => true
  | _ => false

/-- The `VerboseLevel` enumeration of `linker.py`. -/
inductive VerboseLevel where
  | NOTHING
  | RENAME_FILE
  | CREATE_LINK
  | LINK_OK
deriving DecidableEq

/-- The numeric value of a verbosity level (it is an `IntEnum`). -/
def VerboseLevel.toNat : VerboseLevel → Nat
  | .NOTHING => 0
  | .RENAME_FILE => 1
  | .CREATE_LINK => 2
  | .LINK_OK => 3

/-- `MAX_VERBOSE = max(VerboseLevel)`. -/
def MAX_VERBOSE : VerboseLevel := .LINK_OK

/-- Process-wide ambient data: the current working directory and the user's
home directory (both absolute in a real process). -/
structure Env where
  cwd : Path
  home : Path

/-- The mutable world of a run: the filesystem and everything printed so
far. -/
structure St where
  fs : FS
  log : List String
deriving DecidableEq

instance {ε α : Type} [DecidableEq ε] [DecidableEq α] : DecidableEq (Except ε α) := fun a b =>
  match a, b with
  | .ok x, .ok y =>
    if h : x = y then isTrue (by rw [h]) else isFalse (by simp [h])
  | .error e, .error f =>
    if h : e = f then isTrue (by rw [h]) else isFalse (by simp [h])
  | .ok _, .error _ => isFalse (by simp)
  | .error _, .ok _ => isFalse (by simp)

/-- A guarded `print`: append the message to the log when the run's verbosity
level is at least the threshold. -/
def output (v : VerboseLevel) (threshold : VerboseLevel) (msg : String) (s : St) : St :=
  if threshold.toNat ≤ v.toNat then { s with log := s.log ++ [msg] } else s

/-- `q` lies in the subtree rooted at `root` (including `root` itself):
same anchor, and `root`'s components are an initial segment of `q`'s. -/
def underP (root q : Path) : Prop :=
  q.absolute = root.absolute ∧ q.parts.take root.parts.length = root.parts

instance (root q : Path) : Decidable (underP root q) :=
  instDecidableAnd

/-- One association of the filesystem after `os.rename(p, pb)` of a
directory: keys inside `p`'s subtree are re-rooted at `pb`, others are
untouched. -/
def rebaseEntry (p pb : Path) (kv : Path × Entry) : Path × Entry :=
  if underP p kv.1
  then (⟨pb.absolute, pb.parts ++ kv.1.parts.drop p.parts.length⟩, kv.2)
  else kv

/-- `p.rename(pb)` (the `rename(2)` system call).  A renamed directory
carries its entire subtree with it, because every path under it is named
relative to it; in this flat model that is rendered by re-rooting every key
in its subtree.  A file or symlink has no subtree on a real filesystem, so
only its own key moves.  Call sites guarantee `p` exists and `pb` is free. -/
def renameFS (fs : FS) (p pb : Path) : FS :=
  match lookupFS fs p with
  | some .dir => fs.map (rebaseEntry p pb)
  | some e => insertFS (eraseFS fs p) pb e
  | none => fs

/-- The backup candidate `Path(f"{p}.bkp_{i}")`: string concatenation appends
to the last component (or creates one when there is none). -/
def appendToLast (suf : String) : List String → List String
  | [] => [suf]
  | [a] => [a ++ suf]
  | a :: b :: rest => a :: appendToLast suf (b :: rest)

/-- The backup name for index `i`, suffixing `.bkp_<i>` (decimal) to the
path's string form. -/
def backupPath (p : Path) (i : Nat) : Path :=
  ⟨p.absolute, appendToLast (".bkp_" ++ Nat.repr i) p.parts⟩

/-- The probe loop of `safe_remove`: starting at index `i`, return the first
index whose backup candidate does not exist, giving up after `fuel` probes. -/
def findFree (fs : FS) (p : Path) : Nat → Nat → Option Nat
  | 0, _ => none
  | fuel + 1, i =>
    if (lookupFS fs (backupPath p i)).isSome then findFree fs p fuel (i + 1)
    else some i

/-- `safe_remove(p, verbose_level)` from `linker.py`: absolutise `p`, assert it
exists (without following symlinks), find the lowest free `.bkp_<i>` candidate
and rename `p` to it, reporting the rename at verbosity `RENAME_FILE` and
above.  The fuel `fs.length + 1` never runs out (see the termination theorem
below). -/
def safe_remove (env : Env) (p0 : Path) (v : VerboseLevel) (s : St) :
    Except String Path × St :=
  let p := Path.toAbsolute env.cwd p0
  match lookupFS s.fs p with
  | none => (.error "AssertionError: p.exists(follow_symlinks=False)", s)
  | some e =>
    match findFree s.fs p (s.fs.length + 1) 0 with
    | none => (.error "unreachable: no free backup index", s)
    | some i =>
      let pb := backupPath p i
      let s1 := output v .RENAME_FILE s!"renaming {p} -> {pb}" s
      (.ok pb, { s1 with fs := renameFS s1.fs p pb })

/-- One level of `Path.mkdir(exist_ok=True)`: create a directory at `q` if
nothing is there; accept an existing entry only when it is (or resolves to) a
directory. -/
def mkdirOne (fs : FS) (q : Path) : Except String FS :=
  match lookupFS fs q with
  | none => .ok (insertFS fs q .dir)
  | some .dir => .ok fs
  | some _ => if isDirFollow fs q then .ok fs else .error s!"FileExistsError: {q}"

/-- The iteration of `mkdir` over a list of prefix lengths, stopping at the
first failure. -/
def mkdirPrefixes (b : Bool) (parts : List String) : List Nat → FS → Except String FS
  | [], fs => .ok fs
  | k :: rest, fs =>
    match mkdirOne fs ⟨b, parts.take (k + 1)⟩ with
    | .error e => .error e
    | .ok fs1 => mkdirPrefixes b parts rest fs1

/-- `p.mkdir(exist_ok=True, parents=True)`: ensure a directory at every
component prefix of `p`, shortest first. -/
def mkdirParents (fs : FS) (p : Path) : Except String FS :=
  mkdirPrefixes p.absolute p.parts (List.range p.parts.length) fs

/-- `dst.symlink_to(src)`: create a symlink storing the literal target `src`;
fails if anything already exists at `dst`. -/
def symlinkTo (fs : FS) (dst src : Path) : Except String FS :=
  if (lookupFS fs dst).isSome then .error s!"FileExistsError: {dst}"
  else .ok (insertFS fs dst (.symlink src))

/-- The `ValueError` message raised by `safe_link` for a missing source. -/
def missingSrcMsg (src : Path) : String :=
  s!"src {src} not found"

/-- The tail of `safe_link` (its last six lines): back up whatever exists at
`dst`, report the link creation at `CREATE_LINK`, create missing parent
directories, and create the symlink.  `src` and `dst` are already absolute
and `is_dir` is the informational suffix computed at entry. -/
def replaceAndLink (env : Env) (v : VerboseLevel) (src dst : Path) (is_dir : String)
    (s : St) : Except String Unit × St :=
  let step1 : Except String Unit × St :=
    if (lookupFS s.fs dst).isSome then
      match safe_remove env dst v s with
      | (.ok _, s') => (.ok (), s')
      | (.error e, s') => (.error e, s')
    else (.ok (), s)
  match step1 with
  | (.error e, s') => (.error e, s')
  | (.ok _, s') =>
    let s2 := output v .CREATE_LINK (s!"linking  {dst} <- {src}" ++ is_dir) s'
    match mkdirParents s2.fs dst.parent with
    | .error e => (.error e, s2)
    | .ok fs2 =>
      match symlinkTo fs2 dst src with
      | .error e => (.error e, { s2 with fs := fs2 })
      | .ok fs3 => (.ok (), { s2 with fs := fs3 })

/-- `safe_link(src, dst, verbose_level)` from `linker.py`: absolutise both
paths; fail if `src` does not exist (following links); do nothing (but report
at `LINK_OK`) when `dst` is already a symlink whose literal target equals
`src`; otherwise back up whatever exists at `dst`, report at `CREATE_LINK`,
create missing parent directories, and link `dst` to `src`. -/
def safe_link (env : Env) (src0 dst0 : Path) (v : VerboseLevel) (s : St) :
    Except String Unit × St :=
  let src := Path.toAbsolute env.cwd src0
  let dst := Path.toAbsolute env.cwd dst0
  let is_dir := if isDirFollow s.fs src then "/" else ""
  let correct : Bool :=
    match lookupFS s.fs dst with
    | some (.symlink t) => t = src
    | _ => false
  if existsFollow s.fs src = false then
    (.error (missingSrcMsg src), s)
  else if correct then
    (.ok (), output v .LINK_OK (s!"exists   {dst} <- {src}" ++ is_dir) s)
  else
    replaceAndLink env v src dst is_dir s

/-- One iteration of the link-creation loop of `install_links`: remove (with
backup) when the source is absent, otherwise delegate to `safe_link`.  A bare
`exists()` on a possibly relative path is resolved by the OS against the
current working directory. -/
def installStep (env : Env) (v : VerboseLevel) (s : St) (entry : Path × Option Path) :
    Except String Unit × St :=
  match entry.2 with
  | none =>
    if (lookupFS s.fs (Path.toAbsolute env.cwd entry.1)).isSome then
      match safe_remove env entry.1 v s with
      | (.ok _, s') => (.ok (), s')
      | (.error e, s') => (.error e, s')
    else (.ok (), s)
  | some src => safe_link env src entry.1 v s

/-- The link-creation loop of `install_links`, in mapping order; a raised
exception aborts the remaining entries, keeping prior mutations. -/
def runEntries (env : Env) (v : VerboseLevel) :
    List (Path × Option Path) → St → Except String Unit × St
  | [], s => (.ok (), s)
  | e :: rest, s =>
    match installStep env v s e with
    | (.ok _, s') => runEntries env v rest s'
    | (.error msg, s') => (.error msg, s')

/-- Insertion into a Python `dict` built by comprehension: an existing key
keeps its position and takes the new value, a new key is appended. -/
def dictInsert : List (Path × Option Path) → Path → Option Path →
    List (Path × Option Path)
  | [], k, v => [(k, v)]
  | (k', v') :: rest, k, v =>
    if k = k' then (k, v) :: rest else (k', v') :: dictInsert rest k v

/-- The `locations_full` dict comprehension of `install_links`: each
destination is `dst_dir / dst.expanduser()`, each present source is
`src_dir / src`. -/
def resolveLocations (env : Env) (locations : List (Path × Option Path))
    (src_dir dst_dir : Path) : List (Path × Option Path) :=
  locations.foldl
    (fun acc kv =>
      dictInsert acc (Path.join dst_dir (Path.expanduser env.home kv.1))
        (kv.2.map fun sp => Path.join src_dir sp))
    []

/-- The containment-violation message for a destination. -/
def dstViolationMsg (dst_dir d : Path) : String :=
  s!"only linking files into {dst_dir}, not {d}"

/-- The containment-violation message for a source. -/
def srcViolationMsg (src_dir sp : Path) : String :=
  s!"only linking files from {src_dir}, not {sp}"

/-- The check loop of `install_links`: the first entry whose destination does
not have `dst_dir` among its ancestors, or whose present source does not have
`src_dir` among its ancestors, produces the corresponding `ValueError`
message. -/
def validationError : List (Path × Option Path) → Path → Path → Option String
  | [], _, _ => none
  | (d, none) :: rest, src_dir, dst_dir =>
    if dst_dir ∈ d.parents then validationError rest src_dir dst_dir
    else some (dstViolationMsg dst_dir d)
  | (d, some sp) :: rest, src_dir, dst_dir =>
    if dst_dir ∈ d.parents then
      if src_dir ∈ sp.parents then validationError rest src_dir dst_dir
      else some (srcViolationMsg src_dir sp)
    else some (dstViolationMsg dst_dir d)

/-- `install_links(locations, src_dir, dst_dir, verbose_level)` from
`linker.py`: resolve the mapping, validate every entry against the two roots
(raising before any mutation on a violation), then process the entries in
order. -/
def install_links (env : Env) (locations : List (Path × Option Path))
    (src_dir dst_dir : Path) (v : VerboseLevel) (s : St) :
    Except String Unit × St :=
  let locations_full := resolveLocations env locations src_dir dst_dir
  match validationError locations_full src_dir dst_dir with
  | some msg => (.error msg, s)
  | none => runEntries env v locations_full s

/-! Auxiliary definitions used only by the proofs below: a structural
presentation of the decimal digits of a natural number, and its evaluation
map, used to show that distinct backup indices give distinct backup names. -/

/-- The big-endian decimal digit characters of a natural number. -/
def decDigits (n : Nat) : List Char :=
  if h : n < 10 then [Nat.digitChar n]
  else decDigits (n / 10) ++ [Nat.digitChar (n % 10)]
termination_by n
decreasing_by exact Nat.div_lt_self (by omega) (by omega)

/-- The numeric value of a decimal digit character. -/
def charVal (c : Char) : Nat := c.toNat - 48

/-- Lexical collapsing of ".." components (the resolution the spec's
containment property speaks about, which `pathlib` — and hence the code —
never performs).  The accumulator holds the already-normalised components in
reverse. -/
def normalizeParts (acc : List String) : List String → List String
  | [] => acc.reverse
  | c :: rest =>
    if c = ".." then normalizeParts (acc.drop 1) rest
    else normalizeParts (c :: acc) rest

/-- A path with its ".." components collapsed. -/
def Path.normalize (p : Path) : Path :=
  ⟨p.absolute, normalizeParts [] p.parts⟩

/-- The spec's containment notion: after collapsing ".." components, the root
is a strict ancestor of the path. -/
def specContained (root p : Path) : Bool :=
  decide (root ∈ (Path.normalize p).parents)

/-- Evaluation of a big-endian decimal digit string. -/
def digitsVal (l : List Char) : Nat :=
  l.foldl (fun a c => 10 * a + charVal c) 0

/-! ### Lookup, erase and insert -/

theorem lookup_erase_self (fs : FS) (p : Path) : lookupFS (eraseFS fs p) p = none := by
  induction fs with
  | nil => rfl
  | cons kv rest ih =>
    by_cases h : kv.1 = p
    · simpa [eraseFS, h] using ih
    · simpa [eraseFS, h, lookupFS, Ne.symm h] using ih

theorem lookup_erase_ne (fs : FS) (p q : Path) (h : q ≠ p) :
    lookupFS (eraseFS fs p) q = lookupFS fs q := by
  induction fs with
  | nil => rfl
  | cons kv rest ih =>
    by_cases hk : kv.1 = p
    · subst hk
      simp [eraseFS, lookupFS, ih, h]
    · by_cases hq : q = kv.1
      · simp [eraseFS, hk, lookupFS, hq]
      · simp [eraseFS, hk, lookupFS, hq, ih]

theorem lookup_insert_self (fs : FS) (p : Path) (e : Entry) :
    lookupFS (insertFS fs p e) p = some e := by
  simp [insertFS, lookupFS]

theorem lookup_insert_ne (fs : FS) (p q : Path) (e : Entry) (h : q ≠ p) :
    lookupFS (insertFS fs p e) q = lookupFS fs q := by
  simp [insertFS, lookupFS, h, lookup_erase_ne fs p q h]

theorem mem_keys_of_lookup {fs : FS} {q : Path} {e : Entry}
    (h : lookupFS fs q = some e) : q ∈ fs.map Prod.fst := by
  induction fs with
  | nil => simp [lookupFS] at h
  | cons kv rest ih =>
    by_cases hq : q = kv.1
    · simp [hq]
    · simp only [lookupFS, hq, if_false] at h
      simp [ih h]

/-! ### Injectivity of the decimal representation, hence of backup names -/

theorem toDigitsCore_eq_decDigits :
    ∀ (fuel n : Nat) (ds : List Char), n < fuel →
      Nat.toDigitsCore 10 fuel n ds = decDigits n ++ ds := by
  intro fuel
  induction fuel with
  | zero => intro n ds h; omega
  | succ f ih =>
    intro n ds h
    rw [Nat.toDigitsCore]
    by_cases h10 : n / 10 = 0
    · have hn : n < 10 := by omega
      simp only [h10, if_pos rfl]
      rw [decDigits, dif_pos hn, Nat.mod_eq_of_lt hn]
      rfl
    · have hn : ¬ n < 10 := by omega
      have hlt : n / 10 < f := by
        have : n / 10 < n := Nat.div_lt_self (by omega) (by omega)
        omega
      rw [decDigits, dif_neg hn]
      simp only [if_neg h10]
      rw [ih (n / 10) _ hlt, List.append_assoc]
      rfl

theorem repr_eq_decDigits (n : Nat) : Nat.repr n = (decDigits n).asString := by
  show (Nat.toDigits 10 n).asString = (decDigits n).asString
  rw [Nat.toDigits, toDigitsCore_eq_decDigits (n + 1) n [] (Nat.lt_succ_self n),
    List.append_nil]

theorem charVal_digitChar {d : Nat} (h : d < 10) : charVal (Nat.digitChar d) = d := by
  interval_cases d <;> rfl

theorem digitsVal_append_singleton (l : List Char) (c : Char) :
    digitsVal (l ++ [c]) = 10 * digitsVal l + charVal c := by
  simp [digitsVal, List.foldl_append]

theorem digitsVal_decDigits (n : Nat) : digitsVal (decDigits n) = n := by
  induction n using Nat.strong_induction_on with
  | _ n ih =>
    by_cases h : n < 10
    · rw [decDigits, dif_pos h]
      simp [digitsVal, charVal_digitChar h]
    · rw [decDigits, dif_neg h, digitsVal_append_singleton,
        ih (n / 10) (Nat.div_lt_self (by omega) (by omega)),
        charVal_digitChar (Nat.mod_lt _ (by omega))]
      omega

theorem reprNat_injective {m n : Nat} (h : Nat.repr m = Nat.repr n) : m = n := by
  rw [repr_eq_decDigits, repr_eq_decDigits] at h
  have hd : decDigits m = decDigits n := by
    have := congrArg String.data h
    simpa [List.asString] using this
  calc m = digitsVal (decDigits m) := (digitsVal_decDigits m).symm
    _ = digitsVal (decDigits n) := by rw [hd]
    _ = n := digitsVal_decDigits n

theorem string_append_left_cancel {a b c : String} (h : a ++ b = a ++ c) : b = c := by
  have hd := congrArg String.data h
  simp only [String.data_append] at hd
  exact String.ext (List.append_cancel_left hd)

theorem appendToLast_inj {s1 s2 : String} :
    ∀ l : List String, appendToLast s1 l = appendToLast s2 l → s1 = s2 := by
  intro l
  induction l with
  | nil => intro h; simpa [appendToLast] using h
  | cons a rest ih =>
    cases rest with
    | nil =>
      intro h
      simp only [appendToLast, List.cons.injEq, and_true] at h
      exact string_append_left_cancel h
    | cons b tail =>
      intro h
      simp only [appendToLast, List.cons.injEq] at h
      exact ih h.2

theorem backupPath_inj {p : Path} {i j : Nat} (h : backupPath p i = backupPath p j) :
    i = j := by
  have hparts : appendToLast (".bkp_" ++ Nat.repr i) p.parts
      = appendToLast (".bkp_" ++ Nat.repr j) p.parts := congrArg Path.parts h
  exact reprNat_injective (string_append_left_cancel (appendToLast_inj p.parts hparts))

theorem appendToLast_ne {s : String} (hs : s ≠ "") : ∀ l : List String, appendToLast s l ≠ l := by
  intro l
  induction l with
  | nil =>
    intro h
    have h' : [s] = ([] : List String) := h
    simp at h'
  | cons a rest ih =>
    cases rest with
    | nil =>
      simp only [appendToLast, ne_eq, List.cons.injEq, and_true]
      intro h
      have := congrArg String.length h
      rw [String.length_append] at this
      have : s.length = 0 := by omega
      exact hs (String.ext (by simpa [String.length] using List.length_eq_zero.mp this))
    | cons b tail =>
      simp only [appendToLast, ne_eq, List.cons.injEq, true_and]
      intro h
      exact ih h

theorem backupPath_ne_self (p : Path) (i : Nat) : backupPath p i ≠ p := by
  intro h
  have hparts := congrArg Path.parts h
  have hne : (".bkp_" ++ Nat.repr i) ≠ "" := by
    intro hh
    have hlen := congrArg String.length hh
    rw [String.length_append] at hlen
    have h5 : (".bkp_" : String).length = 5 := rfl
    have h0 : ("" : String).length = 0 := rfl
    omega
  exact appendToLast_ne hne p.parts hparts

/-! ### The backup probe loop -/

theorem exists_free_backup (fs : FS) (p : Path) :
    ∃ i, i ≤ fs.length ∧ lookupFS fs (backupPath p i) = none := by
  by_contra hcon
  push_neg at hcon
  have hsub : ((List.range (fs.length + 1)).map fun i => backupPath p i) ⊆
      fs.map Prod.fst := by
    intro q hq
    obtain ⟨i, hi, rfl⟩ := List.mem_map.mp hq
    have hiLe : i ≤ fs.length := by
      have := List.mem_range.mp hi
      omega
    obtain ⟨e, he⟩ := Option.ne_none_iff_exists'.mp (hcon i hiLe)
    exact mem_keys_of_lookup he
  have hnodup : ((List.range (fs.length + 1)).map fun i => backupPath p i).Nodup :=
    List.Nodup.map (fun _ _ h => backupPath_inj h) (List.nodup_range _)
  have hle := (List.subperm_of_subset hnodup hsub).length_le
  simp only [List.length_map, List.length_range] at hle
  omega

theorem findFree_isSome (fs : FS) (p : Path) :
    ∀ fuel i, (∃ j, j < fuel ∧ lookupFS fs (backupPath p (i + j)) = none) →
      (findFree fs p fuel i).isSome := by
  intro fuel
  induction fuel with
  | zero => intro i h; obtain ⟨j, hj, _⟩ := h; omega
  | succ f ih =>
    intro i h
    obtain ⟨j, hj, hfree⟩ := h
    rw [findFree]
    by_cases hocc : (lookupFS fs (backupPath p i)).isSome
    · rw [if_pos hocc]
      apply ih
      refine ⟨j - 1, by
        rcases Nat.eq_zero_or_pos j with hj0 | hj0
        · subst hj0
          simp at hfree
          simp [hfree] at hocc
        · omega, ?_⟩
      have hj0 : j ≠ 0 := by
        intro hj0
        subst hj0
        simp at hfree
        simp [hfree] at hocc
      have : i + 1 + (j - 1) = i + j := by omega
      rw [this]
      exact hfree
    · simp [if_neg hocc]

theorem findFree_spec (fs : FS) (p : Path) :
    ∀ fuel i N, findFree fs p fuel i = some N →
      i ≤ N ∧ lookupFS fs (backupPath p N) = none ∧
        ∀ m, i ≤ m → m < N → (lookupFS fs (backupPath p m)).isSome := by
  intro fuel
  induction fuel with
  | zero => intro i N h; simp [findFree] at h
  | succ f ih =>
    intro i N h
    rw [findFree] at h
    by_cases hocc : (lookupFS fs (backupPath p i)).isSome
    · rw [if_pos hocc] at h
      obtain ⟨hle, hfree, hall⟩ := ih (i + 1) N h
      refine ⟨by omega, hfree, ?_⟩
      intro m him hmN
      rcases Nat.eq_or_lt_of_le him with him' | him'
      · rw [← him']
        exact hocc
      · exact hall m (by omega) hmN
    · rw [if_neg hocc] at h
      have hNi : N = i := (Option.some.inj h).symm
      subst hNi
      exact ⟨le_refl _, Option.not_isSome_iff_eq_none.mp hocc, fun m him hmN => by omega⟩

theorem toAbsolute_of_absolute (cwd : Path) {p : Path} (h : p.absolute = true) :
    Path.toAbsolute cwd p = p := by
  simp [Path.toAbsolute, h]

theorem output_fs (v t : VerboseLevel) (m : String) (s : St) : (output v t m s).fs = s.fs := by
  rw [output]
  split <;> rfl

theorem safe_remove_eq (env : Env) (v : VerboseLevel) (p : Path) (s : St) (e : Entry) (N : Nat)
    (habs : p.absolute = true) (hp : lookupFS s.fs p = some e)
    (hff : findFree s.fs p (s.fs.length + 1) 0 = some N) :
    safe_remove env p v s =
      (.ok (backupPath p N),
        { output v .RENAME_FILE s!"renaming {p} -> {backupPath p N}" s with
          fs := renameFS (output v .RENAME_FILE
            s!"renaming {p} -> {backupPath p N}" s).fs p (backupPath p N) }) := by
  rw [safe_remove]
  simp only [toAbsolute_of_absolute env.cwd habs, hp, hff]

/-- C9. The probe loop of `safe_remove` over indices 0, 1, 2, … terminates on
every finite filesystem: a free backup index exists (there are only finitely
many entries), and the loop as run by `safe_remove` (with its fuel of
`fs.length + 1`) finds one. -/
theorem backup_probe_terminates (fs : FS) (p : Path) :
    (∃ i, lookupFS fs (backupPath p i) = none) ∧
      (findFree fs p (fs.length + 1) 0).isSome = true := by
  obtain ⟨i, hile, hfree⟩ := exists_free_backup fs p
  exact ⟨⟨i, hfree⟩, findFree_isSome fs p (fs.length + 1) 0 ⟨i, by omega, by simpa using hfree⟩⟩

/-! ### What a rename moves: the entry itself, and a directory's subtree -/

theorem appendToLast_length (suf : String) :
    ∀ l : List String, l ≠ [] → (appendToLast suf l).length = l.length := by
  intro l
  induction l with
  | nil => intro h; exact absurd rfl h
  | cons a rest ih =>
    intro _
    cases rest with
    | nil => rfl
    | cons b tail =>
      simp only [appendToLast, List.length_cons]
      rw [ih (by simp)]
      simp

theorem bkpSuffix_ne_empty (i : Nat) : (".bkp_" ++ Nat.repr i) ≠ "" := by
  intro hh
  have hlen := congrArg String.length hh
  rw [String.length_append] at hlen
  have h5 : (".bkp_" : String).length = 5 := rfl
  have h0 : ("" : String).length = 0 := rfl
  omega

theorem backupPath_parts_ne (p : Path) (i : Nat) : (backupPath p i).parts ≠ p.parts :=
  appendToLast_ne (bkpSuffix_ne_empty i) p.parts

theorem backupPath_parts_length {p : Path} (i : Nat) (h : p.parts ≠ []) :
    (backupPath p i).parts.length = p.parts.length :=
  appendToLast_length _ p.parts h

theorem underP_refl (p : Path) : underP p p :=
  ⟨rfl, by simp⟩

theorem underP_append (root : Path) (rest : List String) :
    underP root ⟨root.absolute, root.parts ++ rest⟩ :=
  ⟨rfl, List.take_left root.parts rest⟩

theorem parts_eq_of_underP {root q : Path} (h : underP root q) :
    q.parts = root.parts ++ q.parts.drop root.parts.length := by
  conv_lhs => rw [← List.take_append_drop root.parts.length q.parts]
  rw [h.2]

theorem lookup_none_iff (fs : FS) (q : Path) :
    lookupFS fs q = none ↔ ∀ kv ∈ fs, kv.1 ≠ q := by
  induction fs with
  | nil => simp [lookupFS]
  | cons kv rest ih =>
    constructor
    · intro h kv' hm
      rw [lookupFS] at h
      by_cases hq : q = kv.1
      · rw [if_pos hq] at h
        exact absurd h (by simp)
      · rw [if_neg hq] at h
        rcases List.mem_cons.mp hm with rfl | hm'
        · exact fun he => hq he.symm
        · exact (ih.mp h) kv' hm'
    · intro hall
      rw [lookupFS]
      have hq : q ≠ kv.1 := fun he => hall kv (by simp) he.symm
      rw [if_neg hq]
      exact ih.mpr fun kv' hm' => hall kv' (by simp [hm'])

theorem lookup_map_rebase_outside (p pb : Path) :
    ∀ (fs : FS) (q : Path), ¬ underP p q → ¬ underP pb q →
      lookupFS (fs.map (rebaseEntry p pb)) q = lookupFS fs q := by
  intro fs
  induction fs with
  | nil => intro q _ _; rfl
  | cons kv rest ih =>
    obtain ⟨k, e⟩ := kv
    intro q hnp hnpb
    rw [List.map_cons, rebaseEntry]
    by_cases hk : underP p k
    · rw [if_pos hk, lookupFS, lookupFS]
      have hq : q ≠ (⟨pb.absolute, pb.parts ++ k.parts.drop p.parts.length⟩ : Path) := by
        intro hqe
        exact hnpb (by rw [hqe]; exact underP_append pb _)
      have hq2 : q ≠ k := by
        intro hqe
        exact hnp (by rw [hqe]; exact hk)
      rw [if_neg hq, if_neg hq2]
      exact ih q hnp hnpb
    · rw [if_neg hk, lookupFS, lookupFS]
      by_cases hq : q = k
      · rw [if_pos hq, if_pos hq]
      · rw [if_neg hq, if_neg hq]
        exact ih q hnp hnpb

theorem lookup_map_rebase_self_none (p : Path) (i : Nat) :
    ∀ fs : FS, lookupFS (fs.map (rebaseEntry p (backupPath p i))) p = none := by
  intro fs
  induction fs with
  | nil => rfl
  | cons kv rest ih =>
    obtain ⟨k, e⟩ := kv
    rw [List.map_cons, rebaseEntry]
    by_cases hk : underP p k
    · rw [if_pos hk, lookupFS]
      have hq : p ≠ (⟨(backupPath p i).absolute,
          (backupPath p i).parts ++ k.parts.drop p.parts.length⟩ : Path) := by
        intro hpe
        have hparts : p.parts = (backupPath p i).parts ++ k.parts.drop p.parts.length :=
          congrArg Path.parts hpe
        by_cases hnil : p.parts = []
        · have hbk : (backupPath p i).parts = [".bkp_" ++ Nat.repr i] := by
            show appendToLast (".bkp_" ++ Nat.repr i) p.parts = _
            rw [hnil]
            rfl
          rw [hnil, hbk] at hparts
          simp at hparts
        · have hlen := congrArg List.length hparts
          rw [List.length_append, backupPath_parts_length i hnil] at hlen
          have hdrop : k.parts.drop p.parts.length = [] := List.length_eq_zero.mp (by omega)
          rw [hdrop, List.append_nil] at hparts
          exact backupPath_parts_ne p i hparts.symm
      rw [if_neg hq]
      exact ih
    · rw [if_neg hk, lookupFS]
      have hq : p ≠ k := fun hpe => hk (by rw [← hpe]; exact underP_refl p)
      rw [if_neg hq]
      exact ih

theorem lookup_map_rebase_inside_none (p : Path) (i : Nat) (hnil : p.parts ≠ []) :
    ∀ (fs : FS) (q : Path), underP p q →
      lookupFS (fs.map (rebaseEntry p (backupPath p i))) q = none := by
  intro fs
  induction fs with
  | nil => intro q _; rfl
  | cons kv rest ih =>
    obtain ⟨k, e⟩ := kv
    intro q hq
    rw [List.map_cons, rebaseEntry]
    by_cases hk : underP p k
    · rw [if_pos hk, lookupFS]
      have hne : q ≠ (⟨(backupPath p i).absolute,
          (backupPath p i).parts ++ k.parts.drop p.parts.length⟩ : Path) := by
        intro hqe
        have hparts : q.parts = (backupPath p i).parts ++ k.parts.drop p.parts.length :=
          congrArg Path.parts hqe
        have htake : q.parts.take p.parts.length = (backupPath p i).parts := by
          rw [hparts, ← backupPath_parts_length i hnil, List.take_left]
        rw [hq.2] at htake
        exact backupPath_parts_ne p i htake.symm
      rw [if_neg hne]
      exact ih q hq
    · rw [if_neg hk, lookupFS]
      have hne : q ≠ k := by
        intro hqe
        exact hk (by rw [← hqe]; exact hq)
      rw [if_neg hne]
      exact ih q hq

theorem lookup_map_rebase_backup (p : Path) (i : Nat) :
    ∀ fs : FS, (∀ kv ∈ fs, ¬ underP (backupPath p i) kv.1) →
      ∀ rest : List String,
        lookupFS (fs.map (rebaseEntry p (backupPath p i)))
            ⟨p.absolute, (backupPath p i).parts ++ rest⟩
          = lookupFS fs ⟨p.absolute, p.parts ++ rest⟩ := by
  intro fs
  induction fs with
  | nil => intro _ rest; rfl
  | cons kv rest' ih =>
    obtain ⟨k, e⟩ := kv
    intro hout rest
    have htail := ih (fun kv hm => hout kv (List.mem_cons_of_mem _ hm)) rest
    rw [List.map_cons, rebaseEntry]
    by_cases hk : underP p k
    · rw [if_pos hk, lookupFS, lookupFS]
      by_cases hd : rest = k.parts.drop p.parts.length
      · have h1 : (⟨p.absolute, (backupPath p i).parts ++ rest⟩ : Path)
            = ⟨(backupPath p i).absolute,
                (backupPath p i).parts ++ k.parts.drop p.parts.length⟩ := by
          rw [hd]
          rfl
        have h2 : (⟨p.absolute, p.parts ++ rest⟩ : Path) = k := by
          have hkp := parts_eq_of_underP hk
          calc (⟨p.absolute, p.parts ++ rest⟩ : Path)
              = ⟨k.absolute, k.parts⟩ := by rw [hk.1, hkp, hd]
            _ = k := rfl
        rw [if_pos h1, if_pos h2]
      · have h1 : (⟨p.absolute, (backupPath p i).parts ++ rest⟩ : Path)
            ≠ ⟨(backupPath p i).absolute,
                (backupPath p i).parts ++ k.parts.drop p.parts.length⟩ := by
          intro he
          have hparts : (backupPath p i).parts ++ rest
              = (backupPath p i).parts ++ k.parts.drop p.parts.length :=
            congrArg Path.parts he
          exact hd (List.append_cancel_left hparts)
        have h2 : (⟨p.absolute, p.parts ++ rest⟩ : Path) ≠ k := by
          intro he
          have hparts : p.parts ++ rest = k.parts := congrArg Path.parts he
          rw [parts_eq_of_underP hk] at hparts
          exact hd (List.append_cancel_left hparts)
        rw [if_neg h1, if_neg h2]
        exact htail
    · rw [if_neg hk, lookupFS, lookupFS]
      have h1 : (⟨p.absolute, (backupPath p i).parts ++ rest⟩ : Path) ≠ k := by
        intro he
        apply hout (k, e) (List.mem_cons_self _ _)
        show underP (backupPath p i) k
        rw [← he]
        exact underP_append (backupPath p i) rest
      have h2 : (⟨p.absolute, p.parts ++ rest⟩ : Path) ≠ k := by
        intro he
        apply hk
        rw [← he]
        exact underP_append p rest
      rw [if_neg h1, if_neg h2]
      exact htail

theorem renameFS_of_dir {fs : FS} {p pb : Path} (h : lookupFS fs p = some .dir) :
    renameFS fs p pb = fs.map (rebaseEntry p pb) := by
  rw [renameFS, h]

theorem renameFS_of_nonDir {fs : FS} {p pb : Path} {e : Entry} (h : lookupFS fs p = some e)
    (hne : e ≠ Entry.dir) : renameFS fs p pb = insertFS (eraseFS fs p) pb e := by
  rw [renameFS, h]
  cases e with
  | dir => exact absurd rfl hne
  | file c => rfl
  | symlink t => rfl

/-- C3 counterexample.  `safe_remove` of a directory relocates the whole
subtree (`rename(2)` moves the directory, and every path under it is named
relative to it): removing `/d/a`, a directory containing the file `/d/a/b`,
leaves nothing at `/d/a/b` — a pre-existing entry other than `/d/a` and its
backup that did *not* stay unchanged, refuting the claim's frame clause. -/
theorem safe_remove_dir_counterexample :
    (safe_remove ⟨⟨true, []⟩, ⟨true, ["h"]⟩⟩ ⟨true, ["d", "a"]⟩ VerboseLevel.LINK_OK
        ⟨[(⟨true, ["d", "a"]⟩, Entry.dir), (⟨true, ["d", "a", "b"]⟩, Entry.file "c")], []⟩).1
      = .ok (backupPath ⟨true, ["d", "a"]⟩ 0)
    ∧ (⟨true, ["d", "a", "b"]⟩ : Path) ≠ ⟨true, ["d", "a"]⟩
    ∧ (⟨true, ["d", "a", "b"]⟩ : Path) ≠ backupPath ⟨true, ["d", "a"]⟩ 0
    ∧ lookupFS [(⟨true, ["d", "a"]⟩, Entry.dir), (⟨true, ["d", "a", "b"]⟩, Entry.file "c")]
        ⟨true, ["d", "a", "b"]⟩ = some (Entry.file "c")
    ∧ lookupFS (safe_remove ⟨⟨true, []⟩, ⟨true, ["h"]⟩⟩ ⟨true, ["d", "a"]⟩
        VerboseLevel.LINK_OK
        ⟨[(⟨true, ["d", "a"]⟩, Entry.dir),
          (⟨true, ["d", "a", "b"]⟩, Entry.file "c")], []⟩).2.fs
        ⟨true, ["d", "a", "b"]⟩ = none := by
  refine ⟨by decide, by decide, by decide, by decide, by decide⟩

/-- C3 (amended).  For a path `p` that exists (checked without following
symlinks), `safe_remove` renames `p` to `p.bkp_N` for the smallest `N` whose
candidate does not exist, returns that backup path, and afterwards `p` is
gone.  For a non-directory entry the backup path holds the original entry and
every other path is untouched.  For a directory, `rename(2)` relocates the
entire subtree: every path outside both the original's subtree and the
backup's subtree is unchanged, every path in the original's subtree is gone
(for a non-root `p`), and — whenever nothing pre-exists in the backup's
subtree, which is always the case on a real filesystem since the backup name
is fresh — each entry of the original subtree reappears, unchanged, at the
corresponding path under the backup name (a rename, not a copy). -/
theorem safe_remove_backup_spec (env : Env) (v : VerboseLevel) (p : Path) (s : St) (e : Entry)
    (habs : p.absolute = true) (hp : lookupFS s.fs p = some e) :
    ∃ N, lookupFS s.fs (backupPath p N) = none
      ∧ (∀ m, m < N → (lookupFS s.fs (backupPath p m)).isSome)
      ∧ (safe_remove env p v s).1 = .ok (backupPath p N)
      ∧ lookupFS (safe_remove env p v s).2.fs p = none
      ∧ (e ≠ .dir →
          lookupFS (safe_remove env p v s).2.fs (backupPath p N) = some e
          ∧ ∀ q, q ≠ p → q ≠ backupPath p N →
              lookupFS (safe_remove env p v s).2.fs q = lookupFS s.fs q)
      ∧ (e = .dir →
          (∀ q, ¬ underP p q → ¬ underP (backupPath p N) q →
              lookupFS (safe_remove env p v s).2.fs q = lookupFS s.fs q)
          ∧ (p.parts ≠ [] → ∀ q, underP p q →
              lookupFS (safe_remove env p v s).2.fs q = none)
          ∧ ((∀ rest : List String,
                lookupFS s.fs ⟨p.absolute, (backupPath p N).parts ++ rest⟩ = none) →
              ∀ rest : List String,
                lookupFS (safe_remove env p v s).2.fs
                    ⟨p.absolute, (backupPath p N).parts ++ rest⟩
                  = lookupFS s.fs ⟨p.absolute, p.parts ++ rest⟩)) := by
  obtain ⟨ifree, _, hifree⟩ := exists_free_backup s.fs p
  obtain ⟨N, hff⟩ := Option.isSome_iff_exists.mp
    (findFree_isSome s.fs p (s.fs.length + 1) 0 ⟨ifree, by omega, by simpa using hifree⟩)
  obtain ⟨_, hfree, hall⟩ := findFree_spec s.fs p (s.fs.length + 1) 0 N hff
  have heq := safe_remove_eq env v p s e N habs hp hff
  have hlk' : lookupFS (output v .RENAME_FILE s!"renaming {p} -> {backupPath p N}" s).fs p
      = some e := by
    rw [output_fs]
    exact hp
  refine ⟨N, hfree, fun m hm => hall m (Nat.zero_le m) hm, by rw [heq], ?_, ?_, ?_⟩
  · rw [heq]
    simp only
    cases e with
    | dir =>
      rw [renameFS_of_dir hlk']
      exact lookup_map_rebase_self_none p N _
    | file c =>
      rw [renameFS_of_nonDir hlk' (by simp)]
      rw [lookup_insert_ne _ _ _ _ (Ne.symm (backupPath_ne_self p N)), lookup_erase_self]
    | symlink t =>
      rw [renameFS_of_nonDir hlk' (by simp)]
      rw [lookup_insert_ne _ _ _ _ (Ne.symm (backupPath_ne_self p N)), lookup_erase_self]
  · intro hnd
    rw [heq]
    simp only
    rw [renameFS_of_nonDir hlk' hnd]
    constructor
    · rw [lookup_insert_self]
    · intro q hq hqb
      rw [lookup_insert_ne _ _ _ _ hqb, lookup_erase_ne _ _ _ hq, output_fs]
  · intro hdir
    subst hdir
    rw [heq]
    simp only
    rw [renameFS_of_dir hlk']
    refine ⟨?_, ?_, ?_⟩
    · intro q hnp hnbk
      rw [lookup_map_rebase_outside p (backupPath p N) _ q hnp hnbk, output_fs]
    · intro hnil q hq
      exact lookup_map_rebase_inside_none p N hnil _ q hq
    · intro hclean rest
      have hout : ∀ kv ∈ (output v .RENAME_FILE
          s!"renaming {p} -> {backupPath p N}" s).fs, ¬ underP (backupPath p N) kv.1 := by
        intro kv hm hunder
        obtain ⟨⟨kabs, kparts⟩, ev⟩ := kv
        have h1 : kabs = p.absolute := hunder.1
        have h2 : kparts = (backupPath p N).parts
            ++ kparts.drop (backupPath p N).parts.length := parts_eq_of_underP hunder
        have hnone := hclean (kparts.drop (backupPath p N).parts.length)
        rw [output_fs] at hm
        apply (lookup_none_iff s.fs ⟨p.absolute, (backupPath p N).parts
            ++ kparts.drop (backupPath p N).parts.length⟩).mp hnone ⟨⟨kabs, kparts⟩, ev⟩ hm
        show (⟨kabs, kparts⟩ : Path) = _
        rw [h1]
        exact congrArg (fun l => (⟨p.absolute, l⟩ : Path)) h2
      rw [lookup_map_rebase_backup p N _ hout rest, output_fs]

/-- Concrete instance of the amended C3 theorem: removing the directory
`/d/x` (which contains `/d/x/c`) while `/d/x.bkp_0` and `/d/x.bkp_1` already
exist renames the whole subtree to `/d/x.bkp_2`, leaving the existing
backups alone. -/
theorem safe_remove_backup_spec_witness :
    ∃ N,
      lookupFS
          [(⟨true, ["d", "x"]⟩, Entry.dir), (⟨true, ["d", "x", "c"]⟩, Entry.file "k"),
            (⟨true, ["d", "x.bkp_0"]⟩, Entry.file "b0"),
            (⟨true, ["d", "x.bkp_1"]⟩, Entry.file "b1")]
          (backupPath ⟨true, ["d", "x"]⟩ N) = none
      ∧ (∀ m, m < N →
          (lookupFS
            [(⟨true, ["d", "x"]⟩, Entry.dir), (⟨true, ["d", "x", "c"]⟩, Entry.file "k"),
              (⟨true, ["d", "x.bkp_0"]⟩, Entry.file "b0"),
              (⟨true, ["d", "x.bkp_1"]⟩, Entry.file "b1")]
            (backupPath ⟨true, ["d", "x"]⟩ m)).isSome)
      ∧ (safe_remove ⟨⟨true, []⟩, ⟨true, ["h"]⟩⟩ ⟨true, ["d", "x"]⟩ VerboseLevel.LINK_OK
          ⟨[(⟨true, ["d", "x"]⟩, Entry.dir), (⟨true, ["d", "x", "c"]⟩, Entry.file "k"),
            (⟨true, ["d", "x.bkp_0"]⟩, Entry.file "b0"),
            (⟨true, ["d", "x.bkp_1"]⟩, Entry.file "b1")], []⟩).1
          = .ok (backupPath ⟨true, ["d", "x"]⟩ N)
      ∧ lookupFS (safe_remove ⟨⟨true, []⟩, ⟨true, ["h"]⟩⟩ ⟨true, ["d", "x"]⟩
          VerboseLevel.LINK_OK
          ⟨[(⟨true, ["d", "x"]⟩, Entry.dir), (⟨true, ["d", "x", "c"]⟩, Entry.file "k"),
            (⟨true, ["d", "x.bkp_0"]⟩, Entry.file "b0"),
            (⟨true, ["d", "x.bkp_1"]⟩, Entry.file "b1")], []⟩).2.fs
          ⟨true, ["d", "x"]⟩ = none
      ∧ (Entry.dir ≠ Entry.dir →
          lookupFS (safe_remove ⟨⟨true, []⟩, ⟨true, ["h"]⟩⟩ ⟨true, ["d", "x"]⟩
            VerboseLevel.LINK_OK
            ⟨[(⟨true, ["d", "x"]⟩, Entry.dir), (⟨true, ["d", "x", "c"]⟩, Entry.file "k"),
              (⟨true, ["d", "x.bkp_0"]⟩, Entry.file "b0"),
              (⟨true, ["d", "x.bkp_1"]⟩, Entry.file "b1")], []⟩).2.fs
            (backupPath ⟨true, ["d", "x"]⟩ N) = some Entry.dir
          ∧ ∀ q, q ≠ ⟨true, ["d", "x"]⟩ → q ≠ backupPath ⟨true, ["d", "x"]⟩ N →
              lookupFS (safe_remove ⟨⟨true, []⟩, ⟨true, ["h"]⟩⟩ ⟨true, ["d", "x"]⟩
                VerboseLevel.LINK_OK
                ⟨[(⟨true, ["d", "x"]⟩, Entry.dir),
                  (⟨true, ["d", "x", "c"]⟩, Entry.file "k"),
                  (⟨true, ["d", "x.bkp_0"]⟩, Entry.file "b0"),
                  (⟨true, ["d", "x.bkp_1"]⟩, Entry.file "b1")], []⟩).2.fs q
              = lookupFS
                  [(⟨true, ["d", "x"]⟩, Entry.dir), (⟨true, ["d", "x", "c"]⟩, Entry.file "k"),
                    (⟨true, ["d", "x.bkp_0"]⟩, Entry.file "b0"),
                    (⟨true, ["d", "x.bkp_1"]⟩, Entry.file "b1")] q)
      ∧ (Entry.dir = Entry.dir →
          (∀ q, ¬ underP ⟨true, ["d", "x"]⟩ q →
              ¬ underP (backupPath ⟨true, ["d", "x"]⟩ N) q →
              lookupFS (safe_remove ⟨⟨true, []⟩, ⟨true, ["h"]⟩⟩ ⟨true, ["d", "x"]⟩
                VerboseLevel.LINK_OK
                ⟨[(⟨true, ["d", "x"]⟩, Entry.dir),
                  (⟨true, ["d", "x", "c"]⟩, Entry.file "k"),
                  (⟨true, ["d", "x.bkp_0"]⟩, Entry.file "b0"),
                  (⟨true, ["d", "x.bkp_1"]⟩, Entry.file "b1")], []⟩).2.fs q
              = lookupFS
                  [(⟨true, ["d", "x"]⟩, Entry.dir), (⟨true, ["d", "x", "c"]⟩, Entry.file "k"),
                    (⟨true, ["d", "x.bkp_0"]⟩, Entry.file "b0"),
                    (⟨true, ["d", "x.bkp_1"]⟩, Entry.file "b1")] q)
          ∧ ((⟨true, ["d", "x"]⟩ : Path).parts ≠ [] → ∀ q, underP ⟨true, ["d", "x"]⟩ q →
              lookupFS (safe_remove ⟨⟨true, []⟩, ⟨true, ["h"]⟩⟩ ⟨true, ["d", "x"]⟩
                VerboseLevel.LINK_OK
                ⟨[(⟨true, ["d", "x"]⟩, Entry.dir),
                  (⟨true, ["d", "x", "c"]⟩, Entry.file "k"),
                  (⟨true, ["d", "x.bkp_0"]⟩, Entry.file "b0"),
                  (⟨true, ["d", "x.bkp_1"]⟩, Entry.file "b1")], []⟩).2.fs q = none)
          ∧ ((∀ rest : List String,
                lookupFS
                    [(⟨true, ["d", "x"]⟩, Entry.dir),
                      (⟨true, ["d", "x", "c"]⟩, Entry.file "k"),
                      (⟨true, ["d", "x.bkp_0"]⟩, Entry.file "b0"),
                      (⟨true, ["d", "x.bkp_1"]⟩, Entry.file "b1")]
                    ⟨(⟨true, ["d", "x"]⟩ : Path).absolute,
                      (backupPath ⟨true, ["d", "x"]⟩ N).parts ++ rest⟩ = none) →
              ∀ rest : List String,
                lookupFS (safe_remove ⟨⟨true, []⟩, ⟨true, ["h"]⟩⟩ ⟨true, ["d", "x"]⟩
                    VerboseLevel.LINK_OK
                    ⟨[(⟨true, ["d", "x"]⟩, Entry.dir),
                      (⟨true, ["d", "x", "c"]⟩, Entry.file "k"),
                      (⟨true, ["d", "x.bkp_0"]⟩, Entry.file "b0"),
                      (⟨true, ["d", "x.bkp_1"]⟩, Entry.file "b1")], []⟩).2.fs
                    ⟨(⟨true, ["d", "x"]⟩ : Path).absolute,
                      (backupPath ⟨true, ["d", "x"]⟩ N).parts ++ rest⟩
                  = lookupFS
                      [(⟨true, ["d", "x"]⟩, Entry.dir),
                        (⟨true, ["d", "x", "c"]⟩, Entry.file "k"),
                        (⟨true, ["d", "x.bkp_0"]⟩, Entry.file "b0"),
                        (⟨true, ["d", "x.bkp_1"]⟩, Entry.file "b1")]
                      ⟨(⟨true, ["d", "x"]⟩ : Path).absolute,
                        (⟨true, ["d", "x"]⟩ : Path).parts ++ rest⟩)) :=
  safe_remove_backup_spec ⟨⟨true, []⟩, ⟨true, ["h"]⟩⟩ VerboseLevel.LINK_OK ⟨true, ["d", "x"]⟩
    ⟨[(⟨true, ["d", "x"]⟩, Entry.dir), (⟨true, ["d", "x", "c"]⟩, Entry.file "k"),
      (⟨true, ["d", "x.bkp_0"]⟩, Entry.file "b0"),
      (⟨true, ["d", "x.bkp_1"]⟩, Entry.file "b1")], []⟩ Entry.dir rfl (by decide)

/-! ### The correct-link fast path and the missing-source error -/

theorem safe_link_correct_aux (env : Env) (v : VerboseLevel) (src0 dst0 : Path) (s : St)
    (hsrc : existsFollow s.fs (Path.toAbsolute env.cwd src0) = true)
    (hdst : lookupFS s.fs (Path.toAbsolute env.cwd dst0)
      = some (.symlink (Path.toAbsolute env.cwd src0))) :
    (safe_link env src0 dst0 v s).1 = .ok ()
    ∧ (safe_link env src0 dst0 v s).2.fs = s.fs := by
  rw [safe_link]
  simp only [hdst, hsrc]
  simp [output_fs]

/-- C5. When the source exists (following links) and the destination is
already a symlink whose literal target is exactly the absolute source path,
`safe_link` succeeds and leaves the filesystem completely unchanged. -/
theorem safe_link_noop (env : Env) (v : VerboseLevel) (src dst : Path) (s : St)
    (hsabs : src.absolute = true) (hdabs : dst.absolute = true)
    (hsrc : existsFollow s.fs src = true)
    (hdst : lookupFS s.fs dst = some (.symlink src)) :
    (safe_link env src dst v s).1 = .ok () ∧ (safe_link env src dst v s).2.fs = s.fs := by
  apply safe_link_correct_aux env v src dst s
  · rwa [toAbsolute_of_absolute env.cwd hsabs]
  · rw [toAbsolute_of_absolute env.cwd hsabs, toAbsolute_of_absolute env.cwd hdabs]
    exact hdst

/-- Concrete instance of C5's theorem: a destination `/d/y` that is already a
symlink to the existing `/s/x` is left alone. -/
theorem safe_link_noop_witness :
    (safe_link ⟨⟨true, []⟩, ⟨true, ["h"]⟩⟩ ⟨true, ["s", "x"]⟩ ⟨true, ["d", "y"]⟩
        VerboseLevel.LINK_OK
        ⟨[(⟨true, ["s", "x"]⟩, Entry.file "data"),
          (⟨true, ["d", "y"]⟩, Entry.symlink ⟨true, ["s", "x"]⟩)], []⟩).1 = .ok ()
    ∧ (safe_link ⟨⟨true, []⟩, ⟨true, ["h"]⟩⟩ ⟨true, ["s", "x"]⟩ ⟨true, ["d", "y"]⟩
        VerboseLevel.LINK_OK
        ⟨[(⟨true, ["s", "x"]⟩, Entry.file "data"),
          (⟨true, ["d", "y"]⟩, Entry.symlink ⟨true, ["s", "x"]⟩)], []⟩).2.fs
      = [(⟨true, ["s", "x"]⟩, Entry.file "data"),
          (⟨true, ["d", "y"]⟩, Entry.symlink ⟨true, ["s", "x"]⟩)] :=
  safe_link_noop ⟨⟨true, []⟩, ⟨true, ["h"]⟩⟩ VerboseLevel.LINK_OK
    ⟨true, ["s", "x"]⟩ ⟨true, ["d", "y"]⟩
    ⟨[(⟨true, ["s", "x"]⟩, Entry.file "data"),
      (⟨true, ["d", "y"]⟩, Entry.symlink ⟨true, ["s", "x"]⟩)], []⟩
    rfl rfl (by decide) (by decide)

theorem runEntries_append_ok (env : Env) (v : VerboseLevel)
    (L1 L2 : List (Path × Option Path)) (s s1 : St)
    (h : runEntries env v L1 s = (.ok (), s1)) :
    runEntries env v (L1 ++ L2) s = runEntries env v L2 s1 := by
  induction L1 generalizing s with
  | nil =>
    rw [runEntries] at h
    obtain ⟨-, rfl⟩ := Prod.mk.injEq .. ▸ h
    rfl
  | cons e rest ih =>
    rw [List.cons_append, runEntries]
    rw [runEntries] at h
    cases hstep : installStep env v s e with
    | mk r s' =>
      rw [hstep] at h
      cases r with
      | ok u => exact ih s' h
      | error m => simp at h

/-- C6. A validated entry whose source does not exist (following links) makes
`safe_link` raise the missing-source error without mutating anything: the
whole run stops there, the state stays exactly as the prior entries left it,
and the remaining entries are never processed. -/
theorem missing_source_aborts (env : Env) (v : VerboseLevel)
    (locations L1 L2 : List (Path × Option Path)) (src_dir dst_dir d sp : Path) (s s1 : St)
    (hres : resolveLocations env locations src_dir dst_dir = L1 ++ (d, some sp) :: L2)
    (hval : validationError (L1 ++ (d, some sp) :: L2) src_dir dst_dir = none)
    (hrun : runEntries env v L1 s = (.ok (), s1))
    (hsrc : existsFollow s1.fs (Path.toAbsolute env.cwd sp) = false) :
    install_links env locations src_dir dst_dir v s =
      (.error (missingSrcMsg (Path.toAbsolute env.cwd sp)), s1) := by
  have happ := runEntries_append_ok env v L1 ((d, some sp) :: L2) s s1 hrun
  rw [install_links]
  simp only [hres, hval, happ, runEntries, installStep]
  rw [safe_link]
  simp [hsrc]

/-- Concrete instance of C6's theorem: the first entry installs `/d/y`, the
second entry's source `/s/miss` does not exist, so the run errors out with the
first entry's link kept. -/
theorem missing_source_aborts_witness :
    install_links ⟨⟨true, []⟩, ⟨true, ["h"]⟩⟩
        [(⟨false, ["y"]⟩, some ⟨false, ["x"]⟩), (⟨false, ["z"]⟩, some ⟨false, ["miss"]⟩)]
        ⟨true, ["s"]⟩ ⟨true, ["d"]⟩ VerboseLevel.NOTHING
        ⟨[(⟨true, ["s", "x"]⟩, Entry.file "data"),
          (⟨true, ["s"]⟩, Entry.dir), (⟨true, ["d"]⟩, Entry.dir)], []⟩ =
      (.error (missingSrcMsg (Path.toAbsolute ⟨true, []⟩ ⟨true, ["s", "miss"]⟩)),
        ⟨[(⟨true, ["d", "y"]⟩, Entry.symlink ⟨true, ["s", "x"]⟩),
          (⟨true, ["s", "x"]⟩, Entry.file "data"),
          (⟨true, ["s"]⟩, Entry.dir), (⟨true, ["d"]⟩, Entry.dir)], []⟩) :=
  missing_source_aborts ⟨⟨true, []⟩, ⟨true, ["h"]⟩⟩ VerboseLevel.NOTHING
    [(⟨false, ["y"]⟩, some ⟨false, ["x"]⟩), (⟨false, ["z"]⟩, some ⟨false, ["miss"]⟩)]
    [(⟨true, ["d", "y"]⟩, some ⟨true, ["s", "x"]⟩)] []
    ⟨true, ["s"]⟩ ⟨true, ["d"]⟩ ⟨true, ["d", "z"]⟩ ⟨true, ["s", "miss"]⟩
    ⟨[(⟨true, ["s", "x"]⟩, Entry.file "data"),
      (⟨true, ["s"]⟩, Entry.dir), (⟨true, ["d"]⟩, Entry.dir)], []⟩
    ⟨[(⟨true, ["d", "y"]⟩, Entry.symlink ⟨true, ["s", "x"]⟩),
      (⟨true, ["s", "x"]⟩, Entry.file "data"),
      (⟨true, ["s"]⟩, Entry.dir), (⟨true, ["d"]⟩, Entry.dir)], []⟩
    (by decide) (by decide) (by decide) (by decide)

/-- C7. A validated removal entry (absent source): when anything exists at
the destination it is renamed to the backup name — a regular file with no
pre-existing backups ends at `<destination>.bkp_0` with its content intact
and the destination gone — and when nothing exists there the entry does
nothing at all. -/
theorem removal_entry_semantics (env : Env) (v : VerboseLevel) (dst : Path) (s : St)
    (c : String) (habs : dst.absolute = true)
    (hfile : lookupFS s.fs dst = some (.file c))
    (hbkp : lookupFS s.fs (backupPath dst 0) = none) :
    ((installStep env v s (dst, none)).1 = .ok ()
      ∧ lookupFS (installStep env v s (dst, none)).2.fs dst = none
      ∧ lookupFS (installStep env v s (dst, none)).2.fs (backupPath dst 0) = some (.file c)
      ∧ ∀ q, q ≠ dst → q ≠ backupPath dst 0 →
          lookupFS (installStep env v s (dst, none)).2.fs q = lookupFS s.fs q)
    ∧ ∀ s' : St, lookupFS s'.fs (Path.toAbsolute env.cwd dst) = none →
        installStep env v s' (dst, none) = (.ok (), s') := by
  constructor
  · have hff : findFree s.fs dst (s.fs.length + 1) 0 = some 0 := by
      cases hlen : s.fs.length with
      | zero => simp [hlen, findFree, hbkp]
      | succ n => simp [hlen, findFree, hbkp]
    have heq := safe_remove_eq env v dst s (.file c) 0 habs hfile hff
    have hlk' : lookupFS (output v .RENAME_FILE
        s!"renaming {dst} -> {backupPath dst 0}" s).fs dst = some (.file c) := by
      rw [output_fs]
      exact hfile
    have hstep : installStep env v s (dst, none) = (.ok (), (safe_remove env dst v s).2) := by
      rw [installStep]
      simp only [toAbsolute_of_absolute env.cwd habs, hfile, Option.isSome_some, if_pos]
      rw [heq]
    refine ⟨by rw [hstep], ?_, ?_, ?_⟩
    · rw [hstep, heq]
      simp only
      rw [renameFS_of_nonDir hlk' (by simp)]
      rw [lookup_insert_ne _ _ _ _ (Ne.symm (backupPath_ne_self dst 0)), lookup_erase_self]
    · rw [hstep, heq]
      simp only
      rw [renameFS_of_nonDir hlk' (by simp)]
      rw [lookup_insert_self]
    · intro q hq hqb
      rw [hstep, heq]
      simp only
      rw [renameFS_of_nonDir hlk' (by simp)]
      rw [lookup_insert_ne _ _ _ _ hqb, lookup_erase_ne _ _ _ hq, output_fs]
  · intro s' hnone
    rw [installStep]
    simp [hnone]

/-- Concrete instance of C7's theorem: removing `/d/old` (a plain file, no
backups around) lands it at `/d/old.bkp_0`. -/
theorem removal_entry_semantics_witness :
    ((installStep ⟨⟨true, []⟩, ⟨true, ["h"]⟩⟩ VerboseLevel.LINK_OK
        ⟨[(⟨true, ["d", "old"]⟩, Entry.file "oc")], []⟩ (⟨true, ["d", "old"]⟩, none)).1 = .ok ()
      ∧ lookupFS (installStep ⟨⟨true, []⟩, ⟨true, ["h"]⟩⟩ VerboseLevel.LINK_OK
          ⟨[(⟨true, ["d", "old"]⟩, Entry.file "oc")], []⟩
          (⟨true, ["d", "old"]⟩, none)).2.fs ⟨true, ["d", "old"]⟩ = none
      ∧ lookupFS (installStep ⟨⟨true, []⟩, ⟨true, ["h"]⟩⟩ VerboseLevel.LINK_OK
          ⟨[(⟨true, ["d", "old"]⟩, Entry.file "oc")], []⟩
          (⟨true, ["d", "old"]⟩, none)).2.fs (backupPath ⟨true, ["d", "old"]⟩ 0)
          = some (Entry.file "oc")
      ∧ ∀ q, q ≠ ⟨true, ["d", "old"]⟩ → q ≠ backupPath ⟨true, ["d", "old"]⟩ 0 →
          lookupFS (installStep ⟨⟨true, []⟩, ⟨true, ["h"]⟩⟩ VerboseLevel.LINK_OK
            ⟨[(⟨true, ["d", "old"]⟩, Entry.file "oc")], []⟩
            (⟨true, ["d", "old"]⟩, none)).2.fs q
          = lookupFS [(⟨true, ["d", "old"]⟩, Entry.file "oc")] q)
    ∧ ∀ s' : St, lookupFS s'.fs (Path.toAbsolute ⟨true, []⟩ ⟨true, ["d", "old"]⟩) = none →
        installStep ⟨⟨true, []⟩, ⟨true, ["h"]⟩⟩ VerboseLevel.LINK_OK s'
          (⟨true, ["d", "old"]⟩, none) = (.ok (), s') :=
  removal_entry_semantics ⟨⟨true, []⟩, ⟨true, ["h"]⟩⟩ VerboseLevel.LINK_OK
    ⟨true, ["d", "old"]⟩ ⟨[(⟨true, ["d", "old"]⟩, Entry.file "oc")], []⟩ "oc"
    rfl (by decide) (by decide)

/-- C10. On an empty mapping, `install_links` succeeds and neither mutates the
filesystem nor prints anything, for every choice of roots and verbosity. -/
theorem empty_mapping_noop (env : Env) (src_dir dst_dir : Path) (v : VerboseLevel) (s : St) :
    install_links env [] src_dir dst_dir v s = (.ok (), s) := rfl

/-! ### Batch validation before any mutation -/

theorem validationError_isSome (sd dd : Path) :
    ∀ L : List (Path × Option Path), ∀ pr ∈ L,
      (dd ∉ pr.1.parents ∨ ∃ sp, pr.2 = some sp ∧ sd ∉ sp.parents) →
      (validationError L sd dd).isSome := by
  intro L
  induction L with
  | nil => intro pr h; simp at h
  | cons hd rest ih =>
    obtain ⟨d, os⟩ := hd
    intro pr hmem hfail
    cases os with
    | some sp =>
      rw [validationError]
      by_cases hd1 : dd ∈ d.parents
      · rw [if_pos hd1]
        by_cases hs1 : sd ∈ sp.parents
        · rw [if_pos hs1]
          rcases List.mem_cons.mp hmem with rfl | hmem'
          · rcases hfail with hbad | ⟨sp', hsp', hbad⟩
            · exact absurd hd1 hbad
            · obtain rfl := Option.some.inj hsp'
              exact absurd hs1 hbad
          · exact ih pr hmem' hfail
        · rw [if_neg hs1]
          rfl
      · rw [if_neg hd1]
        rfl
    | none =>
      rw [validationError]
      by_cases hd1 : dd ∈ d.parents
      · rw [if_pos hd1]
        rcases List.mem_cons.mp hmem with rfl | hmem'
        · rcases hfail with hbad | ⟨sp', hsp', _⟩
          · exact absurd hd1 hbad
          · simp at hsp'
        · exact ih pr hmem' hfail
      · rw [if_neg hd1]
        rfl

theorem validationError_shape (sd dd : Path) :
    ∀ L : List (Path × Option Path), ∀ m, validationError L sd dd = some m →
      ∃ p, m = dstViolationMsg dd p ∨ m = srcViolationMsg sd p := by
  intro L
  induction L with
  | nil => intro m h; simp [validationError] at h
  | cons hd rest ih =>
    obtain ⟨d, os⟩ := hd
    intro m h
    cases os with
    | some sp =>
      rw [validationError] at h
      by_cases hd1 : dd ∈ d.parents
      · rw [if_pos hd1] at h
        by_cases hs1 : sd ∈ sp.parents
        · rw [if_pos hs1] at h
          exact ih m h
        · rw [if_neg hs1] at h
          exact ⟨sp, Or.inr (Option.some.inj h).symm⟩
      · rw [if_neg hd1] at h
        exact ⟨d, Or.inl (Option.some.inj h).symm⟩
    | none =>
      rw [validationError] at h
      by_cases hd1 : dd ∈ d.parents
      · rw [if_pos hd1] at h
        exact ih m h
      · rw [if_neg hd1] at h
        exact ⟨d, Or.inl (Option.some.inj h).symm⟩

/-- C2. If any entry of the resolved mapping fails the containment check of
its destination against the destination root, or of its present source
against the source root, `install_links` raises before any mutation: the
whole batch is validated up front, so the state — filesystem and output — is
exactly the initial one, and no entry (valid ones included) is installed. -/
theorem validation_before_mutation (env : Env) (v : VerboseLevel)
    (locations : List (Path × Option Path)) (src_dir dst_dir : Path) (s : St)
    (h : ∃ pr ∈ resolveLocations env locations src_dir dst_dir,
      dst_dir ∉ pr.1.parents ∨ ∃ sp, pr.2 = some sp ∧ src_dir ∉ sp.parents) :
    ∃ m, install_links env locations src_dir dst_dir v s = (.error m, s) := by
  obtain ⟨pr, hmem, hfail⟩ := h
  obtain ⟨m, hm⟩ := Option.isSome_iff_exists.mp
    (validationError_isSome src_dir dst_dir _ pr hmem hfail)
  refine ⟨m, ?_⟩
  rw [install_links]
  simp only [hm]

/-- Concrete instance of C2's theorem: a second entry whose source is the
absolute path `/evil/f` (outside the source root `/s`) aborts the run before
the valid first entry is installed; the state is untouched. -/
theorem validation_before_mutation_witness :
    ∃ m, install_links ⟨⟨true, []⟩, ⟨true, ["h"]⟩⟩
        [(⟨false, ["y"]⟩, some ⟨false, ["x"]⟩),
          (⟨false, ["z"]⟩, some ⟨true, ["evil", "f"]⟩)]
        ⟨true, ["s"]⟩ ⟨true, ["d"]⟩ VerboseLevel.LINK_OK
        ⟨[(⟨true, ["s", "x"]⟩, Entry.file "data"),
          (⟨true, ["s"]⟩, Entry.dir), (⟨true, ["d"]⟩, Entry.dir)], []⟩ =
      (.error m,
        ⟨[(⟨true, ["s", "x"]⟩, Entry.file "data"),
          (⟨true, ["s"]⟩, Entry.dir), (⟨true, ["d"]⟩, Entry.dir)], []⟩) :=
  validation_before_mutation ⟨⟨true, []⟩, ⟨true, ["h"]⟩⟩ VerboseLevel.LINK_OK
    [(⟨false, ["y"]⟩, some ⟨false, ["x"]⟩),
      (⟨false, ["z"]⟩, some ⟨true, ["evil", "f"]⟩)]
    ⟨true, ["s"]⟩ ⟨true, ["d"]⟩
    ⟨[(⟨true, ["s", "x"]⟩, Entry.file "data"),
      (⟨true, ["s"]⟩, Entry.dir), (⟨true, ["d"]⟩, Entry.dir)], []⟩
    ⟨(⟨true, ["d", "z"]⟩, some ⟨true, ["evil", "f"]⟩), by decide,
      Or.inr ⟨⟨true, ["evil", "f"]⟩, rfl, by decide⟩⟩

/-! ### Containment is checked lexically, without collapsing ".." -/

/-- C1 counterexample.  The spec's own example — the relative destination
`"../escape"` — resolves to `/d/../escape`, which is *not* under the
destination root `/d` once ".." is collapsed; yet `pathlib` keeps ".."
literally, `/d` is among the lexical ancestors of `/d/../escape`, so the
containment check passes: `install_links` succeeds and mutates the
filesystem (it links `/d/../escape`, i.e. `/escape`, outside the root)
instead of failing with a containment violation. -/
theorem containment_escape_counterexample :
    resolveLocations ⟨⟨true, []⟩, ⟨true, ["h"]⟩⟩
        [(⟨false, ["..", "escape"]⟩, some ⟨false, ["x"]⟩)]
        ⟨true, ["s"]⟩ ⟨true, ["d"]⟩
      = [(⟨true, ["d", "..", "escape"]⟩, some ⟨true, ["s", "x"]⟩)]
    ∧ specContained ⟨true, ["d"]⟩ ⟨true, ["d", "..", "escape"]⟩ = false
    ∧ (install_links ⟨⟨true, []⟩, ⟨true, ["h"]⟩⟩
        [(⟨false, ["..", "escape"]⟩, some ⟨false, ["x"]⟩)]
        ⟨true, ["s"]⟩ ⟨true, ["d"]⟩ MAX_VERBOSE
        ⟨[(⟨true, ["s", "x"]⟩, Entry.file "data"),
          (⟨true, ["s"]⟩, Entry.dir), (⟨true, ["d"]⟩, Entry.dir)], []⟩).1 = .ok ()
    ∧ (install_links ⟨⟨true, []⟩, ⟨true, ["h"]⟩⟩
        [(⟨false, ["..", "escape"]⟩, some ⟨false, ["x"]⟩)]
        ⟨true, ["s"]⟩ ⟨true, ["d"]⟩ MAX_VERBOSE
        ⟨[(⟨true, ["s", "x"]⟩, Entry.file "data"),
          (⟨true, ["s"]⟩, Entry.dir), (⟨true, ["d"]⟩, Entry.dir)], []⟩).2.fs
      ≠ [(⟨true, ["s", "x"]⟩, Entry.file "data"),
          (⟨true, ["s"]⟩, Entry.dir), (⟨true, ["d"]⟩, Entry.dir)] := by
  refine ⟨by decide, by decide, by decide, by decide⟩

/-- C1 (amended).  Containment is checked lexically on the unnormalised
resolved destination: whenever some entry's resolved destination does not
have the destination root among its lexical ancestors (".." components are
kept literally, so `"../escape"` passes the check and is installed, while
e.g. an absolute destination outside the root fails it), `install_links`
fails with a containment violation naming the offending path and its root,
and makes no filesystem change. -/
theorem containment_violation_aborts (env : Env) (v : VerboseLevel)
    (locations : List (Path × Option Path)) (src_dir dst_dir : Path) (s : St)
    (h : ∃ pr ∈ resolveLocations env locations src_dir dst_dir,
      dst_dir ∉ pr.1.parents) :
    ∃ m p, install_links env locations src_dir dst_dir v s = (.error m, s)
      ∧ (m = dstViolationMsg dst_dir p ∨ m = srcViolationMsg src_dir p) := by
  obtain ⟨pr, hmem, hfail⟩ := h
  obtain ⟨m, hm⟩ := Option.isSome_iff_exists.mp
    (validationError_isSome src_dir dst_dir _ pr hmem (Or.inl hfail))
  obtain ⟨p, hp⟩ := validationError_shape src_dir dst_dir _ m hm
  refine ⟨m, p, ?_, hp⟩
  rw [install_links]
  simp only [hm]

/-- Concrete instance of the amended C1 theorem: an absolute destination
`/etc/x` outside `/d` fails lexical containment, so the run aborts untouched
with a violation message. -/
theorem containment_violation_aborts_witness :
    ∃ m p, install_links ⟨⟨true, []⟩, ⟨true, ["h"]⟩⟩
        [(⟨true, ["etc", "x"]⟩, some ⟨false, ["x"]⟩)]
        ⟨true, ["s"]⟩ ⟨true, ["d"]⟩ VerboseLevel.LINK_OK
        ⟨[(⟨true, ["s", "x"]⟩, Entry.file "data")], []⟩ =
      (.error m, ⟨[(⟨true, ["s", "x"]⟩, Entry.file "data")], []⟩)
      ∧ (m = dstViolationMsg ⟨true, ["d"]⟩ p ∨ m = srcViolationMsg ⟨true, ["s"]⟩ p) :=
  containment_violation_aborts ⟨⟨true, []⟩, ⟨true, ["h"]⟩⟩ VerboseLevel.LINK_OK
    [(⟨true, ["etc", "x"]⟩, some ⟨false, ["x"]⟩)] ⟨true, ["s"]⟩ ⟨true, ["d"]⟩
    ⟨[(⟨true, ["s", "x"]⟩, Entry.file "data")], []⟩
    ⟨(⟨true, ["etc", "x"]⟩, some ⟨true, ["s", "x"]⟩), by decide, by decide⟩

/-! ### Verbosity is observational only -/

theorem safe_remove_vfs (env : Env) (p : Path) (v v' : VerboseLevel) (s s' : St)
    (hfs : s.fs = s'.fs) :
    (safe_remove env p v s).1 = (safe_remove env p v' s').1
    ∧ (safe_remove env p v s).2.fs = (safe_remove env p v' s').2.fs := by
  rw [safe_remove, safe_remove, hfs]
  cases hlk : lookupFS s'.fs (Path.toAbsolute env.cwd p) with
  | none => simp [hlk, hfs]
  | some e =>
    cases hff : findFree s'.fs (Path.toAbsolute env.cwd p) (s'.fs.length + 1) 0 with
    | none => simp [hlk, hff, hfs]
    | some i => simp [hlk, hff, output_fs, hfs]

theorem replaceAndLink_vfs (env : Env) (src dst : Path) (is_dir : String)
    (v v' : VerboseLevel) (s s' : St) (hfs : s.fs = s'.fs) :
    (replaceAndLink env v src dst is_dir s).1 = (replaceAndLink env v' src dst is_dir s').1
    ∧ (replaceAndLink env v src dst is_dir s).2.fs
      = (replaceAndLink env v' src dst is_dir s').2.fs := by
  obtain ⟨hr1, hr2⟩ := safe_remove_vfs env dst v v' s s' hfs
  rw [replaceAndLink, replaceAndLink, hfs]
  cases hlk : (lookupFS s'.fs dst).isSome with
  | false =>
    simp only [hlk, Bool.false_eq_true, if_false, output_fs, hfs]
    cases hmk : mkdirParents s'.fs dst.parent with
    | error e => simp [hmk, output_fs, hfs]
    | ok fs2 =>
      simp only [hmk]
      cases hsl : symlinkTo fs2 dst src with
      | error e => simp [hsl]
      | ok fs3 => simp [hsl]
  | true =>
    simp only [hlk, if_true]
    cases h1 : safe_remove env dst v s with
    | mk r1 t1 =>
      cases h2 : safe_remove env dst v' s' with
      | mk r2 t2 =>
        rw [h1, h2] at hr1 hr2
        simp only at hr1 hr2
        cases r1 with
        | error e1 =>
          cases r2 with
          | error e2 => exact ⟨by simpa using hr1, by simpa using hr2⟩
          | ok u2 => simp at hr1
        | ok u1 =>
          cases r2 with
          | error e2 => simp at hr1
          | ok u2 =>
            simp only [output_fs, hr2]
            cases hmk : mkdirParents t2.fs dst.parent with
            | error e => simp [hmk, output_fs, hr2]
            | ok fs2 =>
              simp only [hmk]
              cases hsl : symlinkTo fs2 dst src with
              | error e => simp [hsl]
              | ok fs3 => simp [hsl]

theorem safe_link_vfs (env : Env) (src dst : Path) (v v' : VerboseLevel) (s s' : St)
    (hfs : s.fs = s'.fs) :
    (safe_link env src dst v s).1 = (safe_link env src dst v' s').1
    ∧ (safe_link env src dst v s).2.fs = (safe_link env src dst v' s').2.fs := by
  rw [safe_link, safe_link, hfs]
  cases hex : existsFollow s'.fs (Path.toAbsolute env.cwd src) with
  | false => exact ⟨rfl, hfs⟩
  | true =>
    cases hlk : lookupFS s'.fs (Path.toAbsolute env.cwd dst) with
    | none => exact replaceAndLink_vfs env _ _ _ v v' s s' hfs
    | some e =>
      cases e with
      | file c => exact replaceAndLink_vfs env _ _ _ v v' s s' hfs
      | dir => exact replaceAndLink_vfs env _ _ _ v v' s s' hfs
      | symlink t =>
        by_cases ht : t = Path.toAbsolute env.cwd src
        · subst ht
          simp [output_fs, hfs]
        · have hd : (decide (t = Path.toAbsolute env.cwd src)) = false := decide_eq_false ht
          simp only [hd, Bool.false_eq_true, if_false]
          exact replaceAndLink_vfs env _ _ _ v v' s s' hfs

theorem installStep_vfs (env : Env) (e : Path × Option Path) (v v' : VerboseLevel)
    (s s' : St) (hfs : s.fs = s'.fs) :
    (installStep env v s e).1 = (installStep env v' s' e).1
    ∧ (installStep env v s e).2.fs = (installStep env v' s' e).2.fs := by
  obtain ⟨d, os⟩ := e
  cases os with
  | some sp => exact safe_link_vfs env sp d v v' s s' hfs
  | none =>
    obtain ⟨hr1, hr2⟩ := safe_remove_vfs env d v v' s s' hfs
    rw [installStep, installStep]
    simp only [hfs]
    cases hlk : (lookupFS s'.fs (Path.toAbsolute env.cwd d)).isSome with
    | false => simp [hlk, hfs]
    | true =>
      simp only [hlk, if_true]
      cases h1 : safe_remove env d v s with
      | mk r1 t1 =>
        cases h2 : safe_remove env d v' s' with
        | mk r2 t2 =>
          rw [h1, h2] at hr1 hr2
          simp only at hr1 hr2
          cases r1 with
          | error e1 =>
            cases r2 with
            | error e2 => exact ⟨by simpa using hr1, by simpa using hr2⟩
            | ok u2 => simp at hr1
          | ok u1 =>
            cases r2 with
            | error e2 => simp at hr1
            | ok u2 => exact ⟨rfl, by simpa using hr2⟩

theorem runEntries_vfs (env : Env) (L : List (Path × Option Path)) (v v' : VerboseLevel) :
    ∀ s s' : St, s.fs = s'.fs →
      (runEntries env v L s).1 = (runEntries env v' L s').1
      ∧ (runEntries env v L s).2.fs = (runEntries env v' L s').2.fs := by
  induction L with
  | nil => intro s s' hfs; exact ⟨rfl, hfs⟩
  | cons e rest ih =>
    intro s s' hfs
    obtain ⟨hr1, hr2⟩ := installStep_vfs env e v v' s s' hfs
    rw [runEntries, runEntries]
    cases h1 : installStep env v s e with
    | mk r1 t1 =>
      cases h2 : installStep env v' s' e with
      | mk r2 t2 =>
        rw [h1, h2] at hr1 hr2
        simp only at hr1 hr2
        cases r1 with
        | error e1 =>
          cases r2 with
          | error e2 => exact ⟨by simpa using hr1, by simpa using hr2⟩
          | ok u2 => simp at hr1
        | ok u1 =>
          cases r2 with
          | error e2 => simp at hr1
          | ok u2 => simpa using ih t1 t2 hr2

/-- C8. The verbosity level is purely observational: for every mapping, pair
of roots, initial state and pair of verbosity levels, the two runs of
`install_links` return the same success-or-error result and the same final
filesystem; only what is printed can differ. -/
theorem verbosity_observational (env : Env) (locations : List (Path × Option Path))
    (src_dir dst_dir : Path) (v1 v2 : VerboseLevel) (s : St) :
    (install_links env locations src_dir dst_dir v1 s).1
      = (install_links env locations src_dir dst_dir v2 s).1
    ∧ (install_links env locations src_dir dst_dir v1 s).2.fs
      = (install_links env locations src_dir dst_dir v2 s).2.fs := by
  rw [install_links, install_links]
  cases hval : validationError (resolveLocations env locations src_dir dst_dir)
      src_dir dst_dir with
  | some m => simp [hval]
  | none =>
    simp only [hval]
    exact runEntries_vfs env (resolveLocations env locations src_dir dst_dir) v1 v2 s s rfl

/-! ### Frame lemmas: what a single mutation can and cannot touch -/

theorem toAbsolute_absolute {cwd : Path} (hcwd : cwd.absolute = true) (p : Path) :
    (Path.toAbsolute cwd p).absolute = true := by
  cases hp : p.absolute <;> simp [Path.toAbsolute, Path.join, hp, hcwd]

theorem symlinkTo_ok_lookup {fs fs3 : FS} {dst src : Path} (h : symlinkTo fs dst src = .ok fs3) :
    lookupFS fs3 dst = some (.symlink src) := by
  rw [symlinkTo] at h
  cases hlk : (lookupFS fs dst).isSome with
  | true => rw [hlk] at h; exact absurd h (by simp)
  | false =>
    rw [hlk] at h
    simp only [Bool.false_eq_true, if_false] at h
    obtain rfl := Except.ok.inj h
    exact lookup_insert_self _ _ _

theorem safe_remove_ok_absent (env : Env) (v : VerboseLevel) (p : Path) (s : St)
    (pb : Path) (s' : St) (h : safe_remove env p v s = (.ok pb, s')) :
    lookupFS s'.fs (Path.toAbsolute env.cwd p) = none := by
  rw [safe_remove] at h
  cases hlk : lookupFS s.fs (Path.toAbsolute env.cwd p) with
  | none => rw [hlk] at h; exact absurd h (by simp)
  | some e =>
    rw [hlk] at h
    cases hff : findFree s.fs (Path.toAbsolute env.cwd p) (s.fs.length + 1) 0 with
    | none => rw [hff] at h; exact absurd h (by simp)
    | some i =>
      rw [hff] at h
      obtain ⟨-, rfl⟩ := Prod.mk.injEq .. ▸ h
      simp only
      have hlk' : lookupFS (output v .RENAME_FILE
          s!"renaming {Path.toAbsolute env.cwd p} -> {backupPath (Path.toAbsolute env.cwd p) i}"
          s).fs (Path.toAbsolute env.cwd p) = some e := by
        rw [output_fs]
        exact hlk
      cases e with
      | dir =>
        rw [renameFS_of_dir hlk']
        exact lookup_map_rebase_self_none (Path.toAbsolute env.cwd p) i _
      | file c =>
        rw [renameFS_of_nonDir hlk' (by simp)]
        rw [lookup_insert_ne _ _ _ _
          (Ne.symm (backupPath_ne_self (Path.toAbsolute env.cwd p) i)), lookup_erase_self]
      | symlink t =>
        rw [renameFS_of_nonDir hlk' (by simp)]
        rw [lookup_insert_ne _ _ _ _
          (Ne.symm (backupPath_ne_self (Path.toAbsolute env.cwd p) i)), lookup_erase_self]

/-! ### Postcondition of one installed entry -/

theorem replaceAndLink_ok_post (env : Env) (v : VerboseLevel) (src dst : Path)
    (is_dir : String) (s s' : St) (hcwd : env.cwd.absolute = true)
    (hdabs : dst.absolute = true)
    (h : replaceAndLink env v src dst is_dir s = (.ok (), s')) :
    lookupFS s'.fs dst = some (.symlink src) := by
  rw [replaceAndLink] at h
  cases hocc : (lookupFS s.fs dst).isSome with
  | true =>
    simp only [hocc, if_true] at h
    cases hsr : safe_remove env dst v s with
    | mk r0 t1 =>
      rw [hsr] at h
      cases r0 with
      | error e => exact absurd h (by simp)
      | ok pb =>
        simp only at h
        have ht1 : lookupFS t1.fs dst = none := by
          have := safe_remove_ok_absent env v dst s pb t1 hsr
          rwa [toAbsolute_of_absolute env.cwd hdabs] at this
        cases hmk : mkdirParents (output v .CREATE_LINK
            (s!"linking  {dst} <- {src}" ++ is_dir) t1).fs dst.parent with
        | error e =>
          rw [hmk] at h
          exact absurd h (by simp)
        | ok fs2 =>
          rw [hmk] at h
          simp only at h
          cases hsl : symlinkTo fs2 dst src with
          | error e =>
            rw [hsl] at h
            exact absurd h (by simp)
          | ok fs3 =>
            rw [hsl] at h
            obtain ⟨-, rfl⟩ := Prod.mk.injEq .. ▸ h
            exact symlinkTo_ok_lookup hsl
  | false =>
    simp only [hocc, Bool.false_eq_true, if_false] at h
    cases hmk : mkdirParents (output v .CREATE_LINK
        (s!"linking  {dst} <- {src}" ++ is_dir) s).fs dst.parent with
    | error e =>
      rw [hmk] at h
      exact absurd h (by simp)
    | ok fs2 =>
      rw [hmk] at h
      simp only at h
      cases hsl : symlinkTo fs2 dst src with
      | error e =>
        rw [hsl] at h
        exact absurd h (by simp)
      | ok fs3 =>
        rw [hsl] at h
        obtain ⟨-, rfl⟩ := Prod.mk.injEq .. ▸ h
        exact symlinkTo_ok_lookup hsl

theorem safe_link_ok_post (env : Env) (v : VerboseLevel) (src0 dst0 : Path) (s s' : St)
    (hcwd : env.cwd.absolute = true)
    (h : safe_link env src0 dst0 v s = (.ok (), s')) :
    lookupFS s'.fs (Path.toAbsolute env.cwd dst0)
      = some (.symlink (Path.toAbsolute env.cwd src0)) := by
  have hdabs : (Path.toAbsolute env.cwd dst0).absolute = true := toAbsolute_absolute hcwd dst0
  rw [safe_link] at h
  cases hex : existsFollow s.fs (Path.toAbsolute env.cwd src0) with
  | false =>
    rw [hex] at h
    exact absurd h (by simp)
  | true =>
    rw [hex] at h
    simp only [Bool.true_eq_false, if_false] at h
    cases hlk : lookupFS s.fs (Path.toAbsolute env.cwd dst0) with
    | none =>
      rw [hlk] at h
      exact replaceAndLink_ok_post env v _ _ _ s s' hcwd hdabs h
    | some e =>
      rw [hlk] at h
      cases e with
      | file c => exact replaceAndLink_ok_post env v _ _ _ s s' hcwd hdabs h
      | dir => exact replaceAndLink_ok_post env v _ _ _ s s' hcwd hdabs h
      | symlink t =>
        by_cases ht : t = Path.toAbsolute env.cwd src0
        · subst ht
          simp only [decide_eq_true_eq, if_pos rfl] at h
          obtain ⟨-, rfl⟩ := Prod.mk.injEq .. ▸ h
          simp only [output_fs]
          rw [hlk]
        · simp only [decide_eq_false ht, Bool.false_eq_true, if_false] at h
          exact replaceAndLink_ok_post env v _ _ _ s s' hcwd hdabs h

/-! ### Stability of installed entries across the rest of a run -/

/-- A state in which every link entry is already a correct symlink and every
removal entry's destination is absent makes the whole run a filesystem no-op. -/
theorem runEntries_noop (env : Env) (v : VerboseLevel) :
    ∀ (L : List (Path × Option Path)) (s : St),
      (∀ d sp, (d, some sp) ∈ L → lookupFS s.fs (Path.toAbsolute env.cwd d)
        = some (.symlink (Path.toAbsolute env.cwd sp))) →
      (∀ d, (d, none) ∈ L → lookupFS s.fs (Path.toAbsolute env.cwd d) = none) →
      (runEntries env v L s).2.fs = s.fs := by
  intro L
  induction L with
  | nil => intro s _ _; rfl
  | cons e rest ih =>
    intro s hsome hnone
    obtain ⟨d, os⟩ := e
    rw [runEntries]
    cases os with
    | none =>
      have hst : installStep env v s (d, none) = (.ok (), s) := by
        rw [installStep]
        simp [hnone d (List.mem_cons_self _ _)]
      rw [hst]
      exact ih s (fun d' sp' hm => hsome d' sp' (List.mem_cons_of_mem _ hm))
        (fun d' hm => hnone d' (List.mem_cons_of_mem _ hm))
    | some sp =>
      have hlk := hsome d sp (List.mem_cons_self _ _)
      cases hex : existsFollow s.fs (Path.toAbsolute env.cwd sp) with
      | false =>
        have hst : installStep env v s (d, some sp)
            = (.error (missingSrcMsg (Path.toAbsolute env.cwd sp)), s) := by
          show safe_link env sp d v s = _
          rw [safe_link]
          simp [hex]
        rw [hst]
      | true =>
        obtain ⟨h1, h2⟩ := safe_link_correct_aux env v sp d s hex hlk
        cases hstep : installStep env v s (d, some sp) with
        | mk r0 t =>
          have hsl : safe_link env sp d v s = (r0, t) := hstep
          rw [hsl] at h1 h2
          simp only at h1 h2
          subst h1
          simp only
          rw [ih t
            (fun d' sp' hm => by
              rw [h2]
              exact hsome d' sp' (List.mem_cons_of_mem _ hm))
            (fun d' hm => by
              rw [h2]
              exact hnone d' (List.mem_cons_of_mem _ hm)), h2]

/-- C4 counterexample.  The mapping first removes `a` and then links `a/b`;
creating the link re-creates `/d/a` as a directory via
`mkdir(exist_ok=True, parents=True)`, so a second run with identical
arguments backs `/d/a` up again: the first run succeeds, yet the second run
changes the filesystem, refuting idempotence as claimed. -/
theorem idempotence_counterexample :
    (install_links ⟨⟨true, []⟩, ⟨true, ["h"]⟩⟩
        [(⟨false, ["a"]⟩, none), (⟨false, ["a", "b"]⟩, some ⟨false, ["x"]⟩)]
        ⟨true, ["s"]⟩ ⟨true, ["d"]⟩ VerboseLevel.NOTHING
        ⟨[(⟨true, ["d", "a"]⟩, Entry.file "old"), (⟨true, ["s", "x"]⟩, Entry.file "data"),
          (⟨true, ["s"]⟩, Entry.dir), (⟨true, ["d"]⟩, Entry.dir)], []⟩).1 = .ok ()
    ∧ (install_links ⟨⟨true, []⟩, ⟨true, ["h"]⟩⟩
        [(⟨false, ["a"]⟩, none), (⟨false, ["a", "b"]⟩, some ⟨false, ["x"]⟩)]
        ⟨true, ["s"]⟩ ⟨true, ["d"]⟩ VerboseLevel.NOTHING
        (install_links ⟨⟨true, []⟩, ⟨true, ["h"]⟩⟩
          [(⟨false, ["a"]⟩, none), (⟨false, ["a", "b"]⟩, some ⟨false, ["x"]⟩)]
          ⟨true, ["s"]⟩ ⟨true, ["d"]⟩ VerboseLevel.NOTHING
          ⟨[(⟨true, ["d", "a"]⟩, Entry.file "old"), (⟨true, ["s", "x"]⟩, Entry.file "data"),
            (⟨true, ["s"]⟩, Entry.dir), (⟨true, ["d"]⟩, Entry.dir)], []⟩).2).2.fs
      ≠ (install_links ⟨⟨true, []⟩, ⟨true, ["h"]⟩⟩
          [(⟨false, ["a"]⟩, none), (⟨false, ["a", "b"]⟩, some ⟨false, ["x"]⟩)]
          ⟨true, ["s"]⟩ ⟨true, ["d"]⟩ VerboseLevel.NOTHING
          ⟨[(⟨true, ["d", "a"]⟩, Entry.file "old"), (⟨true, ["s", "x"]⟩, Entry.file "data"),
            (⟨true, ["s"]⟩, Entry.dir), (⟨true, ["d"]⟩, Entry.dir)], []⟩).2.fs := by
  refine ⟨by decide, by decide⟩

/-- C4 (amended).  Idempotence holds for a single-entry mapping (with an
absolute working directory): if a first run of `install_links` succeeds, a
second run with the same arguments performs zero filesystem mutations — the
filesystem after the second run is identical (the second run either finds
the link already correct, finds nothing left to remove, or raises a
missing-source error before touching anything).  With two or more entries
the property genuinely fails: a later entry's `mkdir(parents=True)` can
re-create a removed destination (the counterexample above), and backing up a
directory destination relocates any earlier destination nested inside it. -/
theorem second_run_noop_singleton (env : Env) (v : VerboseLevel) (rawd : Path)
    (rawos : Option Path) (src_dir dst_dir : Path) (s0 s1 : St)
    (hcwd : env.cwd.absolute = true)
    (hrun1 : install_links env [(rawd, rawos)] src_dir dst_dir v s0 = (.ok (), s1)) :
    (install_links env [(rawd, rawos)] src_dir dst_dir v s1).2.fs = s1.fs := by
  cases rawos with
  | some rawsp =>
    have hrl : resolveLocations env [(rawd, some rawsp)] src_dir dst_dir
        = [(Path.join dst_dir (Path.expanduser env.home rawd),
            some (Path.join src_dir rawsp))] := rfl
    simp only [install_links, hrl] at hrun1
    cases hval : validationError
        [(Path.join dst_dir (Path.expanduser env.home rawd),
          some (Path.join src_dir rawsp))] src_dir dst_dir with
    | some m =>
      rw [hval] at hrun1
      exact absurd hrun1 (by simp)
    | none =>
      rw [hval] at hrun1
      simp only at hrun1
      rw [runEntries] at hrun1
      cases hstep : installStep env v s0
          (Path.join dst_dir (Path.expanduser env.home rawd),
            some (Path.join src_dir rawsp)) with
      | mk r0 t =>
        rw [hstep] at hrun1
        cases r0 with
        | error m => exact absurd hrun1 (by simp)
        | ok u =>
          simp only [runEntries] at hrun1
          obtain ⟨-, rfl⟩ := Prod.mk.injEq .. ▸ hrun1
          have hpost := safe_link_ok_post env v (Path.join src_dir rawsp)
            (Path.join dst_dir (Path.expanduser env.home rawd)) s0 t hcwd hstep
          simp only [install_links, hrl, hval]
          exact runEntries_noop env v _ t
            (fun d' sp' hm => by
              rcases List.mem_cons.mp hm with he | he
              · have h1 : d' = Path.join dst_dir (Path.expanduser env.home rawd) :=
                  congrArg Prod.fst he
                have h2 : sp' = Path.join src_dir rawsp :=
                  Option.some.inj (congrArg Prod.snd he)
                rw [h1, h2]
                exact hpost
              · simp at he)
            (fun d' hm => by
              rcases List.mem_cons.mp hm with he | he
              · exact absurd (congrArg Prod.snd he) (by simp)
              · simp at he)
  | none =>
    have hrl : resolveLocations env [(rawd, none)] src_dir dst_dir
        = [(Path.join dst_dir (Path.expanduser env.home rawd), none)] := rfl
    simp only [install_links, hrl] at hrun1
    cases hval : validationError
        [(Path.join dst_dir (Path.expanduser env.home rawd), none)] src_dir dst_dir with
    | some m =>
      rw [hval] at hrun1
      exact absurd hrun1 (by simp)
    | none =>
      rw [hval] at hrun1
      simp only at hrun1
      rw [runEntries] at hrun1
      cases hstep : installStep env v s0
          (Path.join dst_dir (Path.expanduser env.home rawd), none) with
      | mk r0 t =>
        rw [hstep] at hrun1
        cases r0 with
        | error m => exact absurd hrun1 (by simp)
        | ok u =>
          simp only [runEntries] at hrun1
          obtain ⟨-, rfl⟩ := Prod.mk.injEq .. ▸ hrun1
          have habsent : lookupFS t.fs
              (Path.toAbsolute env.cwd (Path.join dst_dir (Path.expanduser env.home rawd)))
              = none := by
            rw [installStep] at hstep
            simp only at hstep
            cases hlk : (lookupFS s0.fs (Path.toAbsolute env.cwd
                (Path.join dst_dir (Path.expanduser env.home rawd)))).isSome with
            | false =>
              rw [hlk] at hstep
              simp only [Bool.false_eq_true, if_false] at hstep
              obtain ⟨-, rfl⟩ := Prod.mk.injEq .. ▸ hstep
              exact Option.not_isSome_iff_eq_none.mp (by simp [hlk])
            | true =>
              rw [hlk] at hstep
              simp only [if_true] at hstep
              cases hsr : safe_remove env
                  (Path.join dst_dir (Path.expanduser env.home rawd)) v s0 with
              | mk rr tt =>
                rw [hsr] at hstep
                cases rr with
                | error e2 => exact absurd hstep (by simp)
                | ok pb =>
                  obtain ⟨-, rfl⟩ := Prod.mk.injEq .. ▸ hstep
                  exact safe_remove_ok_absent env v _ s0 pb tt hsr
          simp only [install_links, hrl, hval]
          exact runEntries_noop env v _ t
            (fun d' sp' hm => by
              rcases List.mem_cons.mp hm with he | he
              · exact absurd (congrArg Prod.snd he) (by simp)
              · simp at he)
            (fun d' hm => by
              rcases List.mem_cons.mp hm with he | he
              · have h1 : d' = Path.join dst_dir (Path.expanduser env.home rawd) :=
                  congrArg Prod.fst he
                rw [h1]
                exact habsent
              · simp at he)

/-- Concrete instance of the amended C4 theorem: after a run that backed up
the file `/d/y` to `/d/y.bkp_0` and linked `/d/y` to `/s/x`, a second
identical single-entry run leaves the filesystem exactly as it is. -/
theorem second_run_noop_singleton_witness :
    (install_links ⟨⟨true, []⟩, ⟨true, ["h"]⟩⟩ [(⟨false, ["y"]⟩, some ⟨false, ["x"]⟩)]
        ⟨true, ["s"]⟩ ⟨true, ["d"]⟩ VerboseLevel.NOTHING
        ⟨[(⟨true, ["d", "y"]⟩, Entry.symlink ⟨true, ["s", "x"]⟩),
          (⟨true, ["d", "y.bkp_0"]⟩, Entry.file "old"),
          (⟨true, ["s", "x"]⟩, Entry.file "data"),
          (⟨true, ["s"]⟩, Entry.dir), (⟨true, ["d"]⟩, Entry.dir)], []⟩).2.fs
      = [(⟨true, ["d", "y"]⟩, Entry.symlink ⟨true, ["s", "x"]⟩),
          (⟨true, ["d", "y.bkp_0"]⟩, Entry.file "old"),
          (⟨true, ["s", "x"]⟩, Entry.file "data"),
          (⟨true, ["s"]⟩, Entry.dir), (⟨true, ["d"]⟩, Entry.dir)] :=
  second_run_noop_singleton ⟨⟨true, []⟩, ⟨true, ["h"]⟩⟩ VerboseLevel.NOTHING
    ⟨false, ["y"]⟩ (some ⟨false, ["x"]⟩) ⟨true, ["s"]⟩ ⟨true, ["d"]⟩
    ⟨[(⟨true, ["d", "y"]⟩, Entry.file "old"), (⟨true, ["s", "x"]⟩, Entry.file "data"),
      (⟨true, ["s"]⟩, Entry.dir), (⟨true, ["d"]⟩, Entry.dir)], []⟩
    ⟨[(⟨true, ["d", "y"]⟩, Entry.symlink ⟨true, ["s", "x"]⟩),
      (⟨true, ["d", "y.bkp_0"]⟩, Entry.file "old"),
      (⟨true, ["s", "x"]⟩, Entry.file "data"),
      (⟨true, ["s"]⟩, Entry.dir), (⟨true, ["d"]⟩, Entry.dir)], []⟩
    rfl (by decide)

end Linker
